import Mathlib

/-!
# pgcopydb `string_utils.c`: a shallow embedding and its verification

The C file `src/bin/pgcopydb/string_utils.c` is embedded function by function.

* A C string is the list of its characters before the terminating NUL.
* A pointer argument that the code compares with `NULL` is an `Option`; an
  output slot `number` is `some x` when it holds `x`, and a function returns its
  C result together with the slot after the call.
* `int` and `int32_t` are 32 bits wide, `short` 16, `long long` and `size_t` 64.
* `size_t` arithmetic that can wrap is written with an explicit `% 2 ^ 64`. The
  counters of `repl_str` (`count`, `cache_sz`, `cache_sz_inc`) never exceed the
  length of a string in memory by more than 1048576 and are plain naturals.
* The C library functions the code calls (`strtoll`, `strtoull`, `strstr`,
  `strchr`, `memcpy`, the conversions of `printf`) are modelled after ISO C.
* A `double` or `long double` value is read as an exact fraction of integers
  (`Dbl`): rounding is not modelled. A `long double` of the x87 extended or of
  the IEEE quadruple format holds every 64-bit integer, and its quotients by
  1024, exactly.
* `malloc` and `realloc` are an argument `alloc` that tells, from the number of
  bytes asked for, whether the request succeeds.
* A loop of the C code is a function with a bound on its number of passes
  that returns `none` when the loop is still running at the bound.
* The counter `lineNumber` of `countLines` is a C `int`: `++lineNumber` at
  `INT_MAX` is a signed overflow, whose behaviour is undefined, and the call
  then ends in `CountOutcome.overflow` instead of returning a number.

The definitions come first: the C library and the functions of the C file,
each followed by the notions its properties are stated with. The theorems
follow.
-/

namespace StringUtils

/-! ## C library: character classes and `strtoll` / `strtoull` -/

/-- The `isspace` class of the C locale: space, `\t`, `\n`, `\v`, `\f`, `\r`. -/
def isspace (c : Char) : Bool :=
  c = ' ' || c = '\t' || c = '\n' || c = Char.ofNat 11 || c = Char.ofNat 12 || c = '\r'

/-- The `isdigit` class: `'0'` to `'9'`. -/
def isdigit (c : Char) : Bool :=
  decide ('0'.toNat ≤ c.toNat) && decide (c.toNat ≤ '9'.toNat)

/-- Value of a decimal digit character. -/
def digitVal (c : Char) : Nat := c.toNat - '0'.toNat

/-- Value of a run of decimal digits, most significant first. -/
def digitsVal (ds : List Char) : Nat := ds.foldl (fun acc c => 10 * acc + digitVal c) 0

/-- Least `long long`. -/
def LLONG_MIN : Int := -(2 ^ 63)

/-- Greatest `long long`. -/
def LLONG_MAX : Int := 2 ^ 63 - 1

/-- Greatest `unsigned long long`. -/
def ULLONG_MAX : Nat := 2 ^ 64 - 1

/-- What a `strtoll`/`strtoull` call leaves behind: the returned number, the
offset of `endptr` from `str`, the characters from `endptr` on, and whether
`errno` was set to `ERANGE`. -/
structure Strto (α : Type) where
  value : α
  endOff : Nat
  rest : List Char
  erange : Bool
deriving DecidableEq, Repr

/-- The subject sequence of `strtol`-family functions in base 10: leading white
space is skipped, then an optional sign, then the longest run of digits.
Returns `(skipped, negative, digits, rest)`; `skipped` counts the white space
and sign characters. -/
def subject (str : List Char) : Nat × Bool × List Char × List Char :=
  let ws := str.takeWhile isspace
  let s1 := str.dropWhile isspace
  let neg : Bool := s1.head? = some '-'
  let signLen : Nat := if s1.head? = some '-' ∨ s1.head? = some '+' then 1 else 0
  let s2 := s1.drop signLen
  (ws.length + signLen, neg, s2.takeWhile isdigit, s2.dropWhile isdigit)

/-- ISO C `strtoll(str, &endptr, 10)`. With no digits there is no conversion:
the value is 0 and `endptr = str`. A value out of range is clamped to
`LLONG_MIN`/`LLONG_MAX` and `errno` is `ERANGE`. -/
def strtoll (str : List Char) : Strto Int :=
  match subject str with
  | (skipped, neg, ds, rest) =>
    if ds = [] then ⟨0, 0, str, false⟩
    else
      let v : Int := if neg then -(digitsVal ds : Int) else (digitsVal ds : Int)
      if v < LLONG_MIN then ⟨LLONG_MIN, skipped + ds.length, rest, true⟩
      else if v > LLONG_MAX then ⟨LLONG_MAX, skipped + ds.length, rest, true⟩
      else ⟨v, skipped + ds.length, rest, false⟩

/-- ISO C `strtoull(str, &endptr, 10)`. The magnitude is range checked against
`ULLONG_MAX`; a leading minus sign negates the result in the unsigned return
type, that is modulo `2 ^ 64`. -/
def strtoull (str : List Char) : Strto Nat :=
  match subject str with
  | (skipped, neg, ds, rest) =>
    if ds = [] then ⟨0, 0, str, false⟩
    else
      let m := digitsVal ds
      if m > ULLONG_MAX then ⟨ULLONG_MAX, skipped + ds.length, rest, true⟩
      else ⟨if neg then (2 ^ 64 - m) % 2 ^ 64 else m, skipped + ds.length, rest, false⟩

/-! ## Integer parsers -/

/-! The bounds of `<limits.h>` and `<stdint.h>`. -/

def SHRT_MIN : Int := -32768
def SHRT_MAX : Int := 32767
def USHRT_MAX : Nat := 65535
def INT_MIN : Int := -2147483648
def INT_MAX : Int := 2147483647
def UINT_MAX : Nat := 4294967295
def INT32_MIN : Int := -2147483648
def INT32_MAX : Int := 2147483647
def UINT32_MAX : Nat := 4294967295
def INT64_MIN : Int := -9223372036854775808
def INT64_MAX : Int := 9223372036854775807
def UINT64_MAX : Nat := 18446744073709551615

/-- Common body of `stringToInt`, `stringToInt64`, `stringToShort` and
`stringToInt32`, which differ in the bounds `lo`, `hi` of the last test only.
`str` and `number` are the two pointer arguments (`none` is `NULL`, `some x`
for `number` is a slot holding `x`). The result is the returned `bool` and the
slot after the call. -/
def parseSigned (lo hi : Int) (str : Option (List Char)) (number : Option Int) :
    Bool × Option Int :=
  match str with
  | none => (false, number)
  | some s =>
    match number with
    | none => (false, number)
    | some _ =>
      let r := strtoll s
      let n := r.value
      if r.endOff = 0 then (false, number)
      else if r.erange then (false, number)
      else if r.rest ≠ [] then (false, number)
      else if n < lo ∨ n > hi then (false, number)
      else (true, some n)

/-- Common body of `stringToUInt`, `stringToUInt64`, `stringToUShort` and
`stringToUInt32`, which differ in the bound `hi` of the last test only. -/
def parseUnsigned (hi : Nat) (str : Option (List Char)) (number : Option Nat) :
    Bool × Option Nat :=
  match str with
  | none => (false, number)
  | some s =>
    match number with
    | none => (false, number)
    | some _ =>
      let r := strtoull s
      let n := r.value
      if r.endOff = 0 then (false, number)
      else if r.erange then (false, number)
      else if r.rest ≠ [] then (false, number)
      else if n > hi then (false, number)
      else (true, some n)

/-- The function `stringToInt`: range check `n < INT_MIN || n > INT_MAX`. -/
def stringToInt := parseSigned INT_MIN INT_MAX

/-- The function `stringToInt64`: range check `n < INT64_MIN || n > INT64_MAX`. -/
def stringToInt64 := parseSigned INT64_MIN INT64_MAX

/-- The function `stringToUInt`: range check `n > UINT_MAX`. -/
def stringToUInt := parseUnsigned UINT_MAX

/-- The function `stringToUInt64`: range check `n > UINT64_MAX`. -/
def stringToUInt64 := parseUnsigned UINT64_MAX

/-- The function `stringToShort`: range check `n < SHRT_MIN || n > SHRT_MAX`. -/
def stringToShort := parseSigned SHRT_MIN SHRT_MAX

/-- The function `stringToUShort`: range check `n > USHRT_MAX`. -/
def stringToUShort := parseUnsigned USHRT_MAX

/-- The function `stringToInt32`: range check `n < INT32_MIN || n > INT32_MAX`. -/
def stringToInt32 := parseSigned INT32_MIN INT32_MAX

/-- The function `stringToUInt32`: range check `n > UINT32_MAX`. -/
def stringToUInt32 := parseUnsigned UINT32_MAX

/-! ## Decimal formatting and `intToString` -/

/-- The character of a decimal digit. -/
def digitChr (d : Nat) : Char := Char.ofNat (d + 48)

/-- Digit loop of the `%d` family of `printf` conversions: the digits of `n`,
least significant first, are pushed in front of `acc`. -/
def decimalAux : Nat → Nat → List Char → List Char
  | 0, _, acc => acc
  | fuel + 1, n, acc =>
    if n / 10 = 0 then digitChr (n % 10) :: acc
    else decimalAux fuel (n / 10) (digitChr (n % 10) :: acc)

/-- Decimal digits of a natural number, without leading zeros (`"0"` for 0). -/
def natDecimal (n : Nat) : List Char := decimalAux (n + 1) n []

/-- Canonical decimal rendering of an integer, as `printf` renders `%lld`,
`%ld` and `%d`: a minus sign for a negative number, then the digits. -/
def decimal (v : Int) : List Char :=
  if v < 0 then '-' :: natDecimal v.natAbs else natDecimal v.natAbs

/-- Modelled from the spec: the bounded formatted write `sformat(buffer, size,
...)` of `file_utils.h`, which is not part of the sources at hand. It stores
at most `size - 1` characters of the rendered text, then the terminator. -/
def sformat (size : Nat) (text : List Char) : List Char := text.take (size - 1)

/-- Modelled from the spec: the constant `INTSTRING_MAX_DIGITS` of
`string_utils.h`, the capacity of `IntString.strValue`: the 19 digits of a
64-bit signed integer, the sign and the terminator. -/
def INTSTRING_MAX_DIGITS : Nat := 21

/-- The C struct `IntString`. -/
structure IntString where
  intValue : Int
  strValue : List Char
deriving DecidableEq, Repr

/-- The function `intToString`. -/
def intToString (number : Int) : IntString :=
  { intValue := number
    strValue := sformat INTSTRING_MAX_DIGITS (decimal number) }

/-! ## Line splitting -/

/-- ISO C `strchr(s, c)` for a character `c` other than NUL: the offset of its
first occurrence in the string, `none` for `NULL`. -/
def strchr : List Char → Char → Option Nat
  | [], _ => none
  | x :: t, c => if x = c then some 0 else (strchr t c).map (· + 1)

/-- The C string found at offset `p` of an array whose bytes are `mem` followed
by a terminating NUL: the characters from `p` up to the first NUL. -/
def cstrAt (mem : List Char) (p : Nat) : List Char :=
  (mem.drop p).takeWhile (fun c => c ≠ Char.ofNat 0)

/-- The byte at offset `p` of such an array. -/
def byteAt (mem : List Char) (p : Nat) : Char := mem.getD p (Char.ofNat 0)

/-- Variables of `splitLines`. `buffer` is the caller's array (its bytes before
the original terminator); `currentLine` is an offset into it, `none` for
`NULL`; `linesArray` lists the stores `linesArray[index] = pointer` made so far
as pairs `(index, offset of the pointer)`, in the order they were made. -/
structure SplitState where
  buffer : List Char
  currentLine : Option Nat
  lineNumber : Nat
  linesArray : List (Nat × Nat)
deriving DecidableEq, Repr

/-- One pass through the body of the `do ... while` loop of `splitLines`. -/
def splitBody (st : SplitState) : SplitState :=
  match st.currentLine with
  | none => st
  | some cur =>
    match strchr (cstrAt st.buffer cur) '\n' with
    | none =>
      if (cstrAt st.buffer cur).length > 0 then
        { st with
          linesArray := st.linesArray ++ [(st.lineNumber, cur)]
          lineNumber := st.lineNumber + 1
          currentLine := none }
      else { st with currentLine := none }
    | some j =>
      { buffer := st.buffer.set (cur + j) (Char.ofNat 0)
        linesArray := st.linesArray ++ [(st.lineNumber, cur)]
        lineNumber := st.lineNumber + 1
        currentLine := some (cur + j + 1) }

/-- The loop condition
`currentLine != NULL && *currentLine != '\0' && lineNumber < size`. -/
def splitCond (size : Int) (st : SplitState) : Bool :=
  match st.currentLine with
  | none => false
  | some cur => byteAt st.buffer cur ≠ Char.ofNat 0 && decide ((st.lineNumber : Int) < size)

/-- The `do ... while` loop of `splitLines`, at most `fuel` passes; `none` when
the loop is still running after that many. -/
def splitLoop (size : Int) : Nat → SplitState → Option SplitState
  | 0, _ => none
  | fuel + 1, st =>
    let st1 := splitBody st
    if splitCond size st1 then splitLoop size fuel st1 else some st1

/-- What a call of `splitLines` leaves behind: the returned `int`, the buffer
and the stores into `linesArray`. -/
structure SplitResult where
  ret : Int
  buffer : List Char
  linesArray : List (Nat × Nat)
deriving DecidableEq, Repr

/-- The function `splitLines(buffer, linesArray, size)`. The contents of the
destination array are never read, so that argument only says whether the
pointer is `NULL`. The loop runs at most once per byte of the buffer, plus
once; `none` would mean that it did not end within that bound. -/
def splitLines (buffer : Option (List Char)) (linesArray : Option Unit) (size : Int) :
    Option SplitResult :=
  match buffer with
  | none => some ⟨0, [], []⟩
  | some buf =>
    match linesArray with
    | none => some ⟨-1, buf, []⟩
    | some _ =>
      (splitLoop size (buf.length + 1) ⟨buf, some 0, 0, []⟩).map
        (fun st => ⟨(st.lineNumber : Int), st.buffer, st.linesArray⟩)

/-- The strings the entries of `linesArray` point to after the call. -/
def SplitResult.segments (r : SplitResult) : List (List Char) :=
  r.linesArray.map (fun w => cstrAt r.buffer w.2)

/-- A buffer is a C string: no NUL before its terminator. -/
def NulFree (s : List Char) : Prop := ∀ c ∈ s, c ≠ Char.ofNat 0

instance (s : List Char) : Decidable (NulFree s) := by
  unfold NulFree
  infer_instance

/-- The pieces of a buffer cut at every newline, in order, the empty pieces
between two newlines or before a leading newline included; the piece after
the last newline is left out when it is empty. -/
def linesOf : List Char → List (List Char)
  | [] => []
  | c :: t =>
    if c = '\n' then [] :: linesOf t
    else
      match linesOf t with
      | [] => [[c]]
      | p :: ps => (c :: p) :: ps

/-- The stores into `linesArray` that record the lines `ls`, the first one at
index `ln` and at offset `off` of the buffer. -/
def writesOf : Nat → Nat → List (List Char) → List (Nat × Nat)
  | _, _, [] => []
  | ln, off, l :: ls => (ln, off) :: writesOf (ln + 1) (off + l.length + 1) ls

/-- How many passes the loop of `splitLines` makes from line number `ln` on,
over a buffer of `n` lines: the first pass is unconditional, the later ones
need `lineNumber < size`. -/
def passes (size : Int) (ln n : Nat) : Nat := min (max 1 (size - ln).toNat) n

/-! ## `repl_str` -/

/-- ISO C `strstr(hay, needle)`: the offset of the first occurrence of `needle`
in `hay`, `none` for `NULL`. An empty needle is found at offset 0. -/
def strstr : List Char → List Char → Option Nat
  | [], needle => if needle = [] then some 0 else none
  | c :: t, needle =>
    if needle.isPrefixOf (c :: t) then some 0 else (strstr t needle).map (· + 1)

/-- Subtraction of two `size_t` values. -/
def subSz (a b : Nat) : Nat := (a + 2 ^ 64 - b % 2 ^ 64) % 2 ^ 64

/-- ISO C `memcpy(dst, src, n)` reading from the string `src`: the `n` bytes
copied; `none` when that reads past the end of the string. -/
def memcpy (src : List Char) (n : Nat) : Option (List Char) :=
  if n ≤ src.length then some (src.take n) else none

/-- Variables of the scan pass of `repl_str`. `pstr` is an offset into `str`,
`pos_cache` holds the entries stored so far, entry `i` at index `i`. -/
structure ScanState where
  pstr : Nat
  count : Nat
  pos_cache : List Nat
  cache_sz : Nat
  cache_sz_inc : Nat
deriving DecidableEq, Repr

/-- What `repl_str` returns: `NULL`, or a newly allocated string. `undefined`
stands for a call that copies from outside a string or that does not fill
exactly the `retlen` bytes it allocated. -/
inductive Ret where
  | null : Ret
  | str (s : List Char) : Ret
  | undefined : Ret
deriving DecidableEq, Repr

/-- The scan loop `while ((pstr2 = strstr(pstr, from)) != NULL)`, at most `fuel`
passes. `alloc n` tells whether a request for `n` bytes succeeds. The result is
`none` when the loop is still running after `fuel` passes, `some none` when
`realloc` failed (`goto end_repl_str`), `some (some st)` when the loop ended. -/
def scanLoop (alloc : Nat → Bool) (str from_ : List Char) :
    Nat → ScanState → Option (Option ScanState)
  | 0, _ => none
  | fuel + 1, st =>
    match strstr (str.drop st.pstr) from_ with
    | none => some (some st)
    | some j =>
      let count := st.count + 1
      let pstr2 := st.pstr + j
      if st.cache_sz < count then
        let cache_sz := st.cache_sz + st.cache_sz_inc
        if alloc (8 * cache_sz % 2 ^ 64) = false then some none
        else
          let inc := st.cache_sz_inc * 3
          scanLoop alloc str from_ fuel
            { pstr := pstr2 + from_.length
              count := count
              pos_cache := st.pos_cache ++ [pstr2]
              cache_sz := cache_sz
              cache_sz_inc := if inc > 1048576 then 1048576 else inc }
      else
        scanLoop alloc str from_ fuel
          { st with
            pstr := pstr2 + from_.length
            count := count
            pos_cache := st.pos_cache ++ [pstr2] }

/-- The value of `cpylen` in pass `i` of the copy loop:
`(i == count-1 ? orglen : pos_cache[i+1]) - pos_cache[i] - fromlen`. -/
def cpylenOf (fromlen orglen count : Nat) (pos_cache : List Nat) (i : Nat) : Nat :=
  subSz (subSz (if i = count - 1 then orglen else pos_cache.getD (i + 1) 0)
    (pos_cache.getD i 0)) fromlen

/-- The copy loop `for (i = 0; i < count; i++)` of the build pass, `n` passes
from index `i` on; `pret` is what has been written to the result so far. -/
def buildLoop (str to_ : List Char) (fromlen orglen count : Nat) (pos_cache : List Nat) :
    Nat → Nat → List Char → Option (List Char)
  | 0, _, pret => some pret
  | n + 1, i, pret =>
    match memcpy (str.drop (pos_cache.getD i 0 + fromlen))
        (cpylenOf fromlen orglen count pos_cache i) with
    | none => none
    | some seg => buildLoop str to_ fromlen orglen count pos_cache n (i + 1) (pret ++ to_ ++ seg)

/-- The value of `retlen` computed by the build pass. -/
def retlenOf (orglen tolen fromlen count : Nat) : Nat :=
  if count > 0 then (orglen + subSz tolen fromlen * count) % 2 ^ 64 else orglen

/-- The build pass of `repl_str`, from `orglen = ...` to the end. -/
def buildPass (alloc : Nat → Bool) (str from_ to_ : List Char) (st : ScanState) : Ret :=
  let fromlen := from_.length
  let orglen := st.pstr + (str.drop st.pstr).length
  let retlen := retlenOf orglen to_.length fromlen st.count
  if alloc ((retlen + 1) % 2 ^ 64) = false then Ret.null
  else if st.count = 0 then Ret.str str
  else
    match memcpy str (st.pos_cache.getD 0 0) with
    | none => Ret.undefined
    | some pre =>
      match buildLoop str to_ fromlen orglen st.count st.pos_cache st.count 0 pre with
      | none => Ret.undefined
      | some out => if out.length = retlen then Ret.str out else Ret.undefined

/-- The function `repl_str(str, from, to)` with its scan loop bounded by
`fuel` passes: `none` when the scan loop is still running after that many. -/
def repl_str (alloc : Nat → Bool) (fuel : Nat) (str from_ to_ : List Char) : Option Ret :=
  match scanLoop alloc str from_ fuel ⟨0, 0, [], 0, 16⟩ with
  | none => none
  | some none => some Ret.null
  | some (some st) => some (buildPass alloc str from_ to_ st)

/-- An allocator that never fails. -/
def allocOk : Nat → Bool := fun _ => true

/-! ### What `repl_str` is to compute -/

/-- The offsets of the matches of `pat` met when reading a string from left to
right: at each position that is not inside the previous match, a match starts
if `pat` occurs there. `skip` is the number of characters still covered by the
previous match, `off` the offset of the first character of the list. -/
def scanOffsets (pat : List Char) : List Char → Nat → Nat → List Nat
  | [], _, _ => []
  | _ :: t, skip + 1, off => scanOffsets pat t skip (off + 1)
  | c :: t, 0, off =>
    if pat.isPrefixOf (c :: t) then off :: scanOffsets pat t (pat.length - 1) (off + 1)
    else scanOffsets pat t 0 (off + 1)

/-- The offsets `p_0 < ... < p_(k-1)` of the non-overlapping matches of `pat`
in `str`, each the first occurrence at or after the end of the one before. -/
def matchOffsets (str pat : List Char) : List Nat := scanOffsets pat str 0 0

/-- The text `str[e..p_0) ++ rep ++ str[p_0+patlen..p_1) ++ rep ++ ... ++
str[p_(k-1)+patlen..end)` for the offsets `p_0, ..., p_(k-1)`, from offset `e`
of `str` on. -/
def splice (str rep : List Char) (patlen : Nat) : Nat → List Nat → List Char
  | e, [] => str.drop e
  | e, p :: ps => (str.drop e).take (p - e) ++ rep ++ splice str rep patlen (p + patlen) ps

/-- What the copy loop of the build pass is to write for the matches `ps` that
are left: for each one the replacement, then the text up to the next match. -/
def spliceTail (str rep : List Char) (patlen : Nat) : List Nat → List Char
  | [] => []
  | p :: ps => rep ++ splice str rep patlen (p + patlen) ps

/-- Offsets `ps` of matches of length `patlen` in a string of length `n`, none
before `e`, none overlapping the one before, each match inside the string. -/
def Chained (patlen n : Nat) : Nat → List Nat → Prop
  | _, [] => True
  | e, p :: ps => e ≤ p ∧ p + patlen ≤ n ∧ Chained patlen n (p + patlen) ps

/-! ## `countLines` -/

/-- The C operation `++lineNumber` on an `int`: one more, or `none` when the
counter is `INT_MAX`, where the signed overflow is undefined. -/
def incrInt (n : Int) : Option Int := if n < INT_MAX then some (n + 1) else none

/-- Variables of `countLines`: `currentLine` is an offset into the buffer,
`none` for `NULL`; `lineNumber` is a C `int`. -/
structure CountState where
  currentLine : Option Nat
  lineNumber : Int
deriving DecidableEq, Repr

/-- How a call of `countLines` ends: the loop is still running at the bound
on its passes, the `int` counter overflows (undefined behaviour), or the call
returns an `int`. -/
inductive CountOutcome where
  | running : CountOutcome
  | overflow : CountOutcome
  | ret (n : Int) : CountOutcome
deriving DecidableEq, Repr

/-- One pass through the body of the `do ... while` loop of `countLines`;
`none` when `++lineNumber` overflows. -/
def countBody (buffer : List Char) (st : CountState) : Option CountState :=
  match st.currentLine with
  | none => some st
  | some cur =>
    match strchr (cstrAt buffer cur) '\n' with
    | none =>
      if (cstrAt buffer cur).length > 0 then
        (incrInt st.lineNumber).map (fun n => { lineNumber := n, currentLine := none })
      else some { st with currentLine := none }
    | some j =>
      (incrInt st.lineNumber).map (fun n => { lineNumber := n, currentLine := some (cur + j + 1) })

/-- The loop condition `currentLine != NULL && *currentLine != '\0'`. -/
def countCond (buffer : List Char) (st : CountState) : Bool :=
  match st.currentLine with
  | none => false
  | some cur => byteAt buffer cur ≠ Char.ofNat 0

/-- The `do ... while` loop of `countLines` followed by `return lineNumber`, at
most `fuel` passes. -/
def countLoop (buffer : List Char) : Nat → CountState → CountOutcome
  | 0, _ => CountOutcome.running
  | fuel + 1, st =>
    match countBody buffer st with
    | none => CountOutcome.overflow
    | some st1 =>
      if countCond buffer st1 then countLoop buffer fuel st1 else CountOutcome.ret st1.lineNumber

/-- The function `countLines(buffer)`. The loop runs at most once per byte of
the buffer, plus once. -/
def countLines (buffer : Option (List Char)) : CountOutcome :=
  match buffer with
  | none => CountOutcome.ret 0
  | some buf => countLoop buf (buf.length + 1) ⟨some 0, 0⟩

/-- The number of lines of a buffer: its newlines, and one more for what
follows the last newline when that is not empty. -/
def lineCount (buf : List Char) : Nat :=
  buf.count '\n' + (if buf ≠ [] ∧ buf.getLast? ≠ some '\n' then 1 else 0)

/-- The pieces obtained by cutting a buffer at every newline, in order: one
more piece than there are newlines, empty pieces included. -/
def pieces : List Char → List (List Char)
  | [] => [[]]
  | c :: t =>
    if c = '\n' then [] :: pieces t
    else
      match pieces t with
      | [] => [[c]]
      | p :: ps => (c :: p) :: ps

/-- A list of pieces without its last piece when that one is empty. -/
def dropEmptyLast (ps : List (List Char)) : List (List Char) :=
  if ps.getLast? = some [] then ps.dropLast else ps

/-- The segments joined with a newline between two of them. -/
def joinLines (segs : List (List Char)) : List Char := List.intercalate ['\n'] segs

/-! ## Formatting of numbers -/

/-- Conversion of a 64-bit unsigned value to `long long`. -/
def toLongLong (n : Nat) : Int := if n % 2 ^ 64 < 2 ^ 63 then n % 2 ^ 64 else (n % 2 ^ 64 : Nat) - 2 ^ 64

/-- The `printf` conversions `%<width>d`, `%<width>ld` and `%<width>lld`: the
decimal numeral, with spaces in front of it up to the field width. -/
def fmtSpace (width : Nat) (v : Int) : List Char :=
  List.replicate (width - (decimal v).length) ' ' ++ decimal v

/-- The `printf` conversions `%0<width>d`, `%0<width>ld` and `%0<width>lld`:
the decimal numeral, with zeros after the sign up to the field width. -/
def fmtZero (width : Nat) (v : Int) : List Char :=
  if v < 0 then
    '-' :: (List.replicate (width - 1 - (natDecimal v.natAbs).length) '0' ++ natDecimal v.natAbs)
  else List.replicate (width - (natDecimal v.natAbs).length) '0' ++ natDecimal v.natAbs

/-- A `double` or `long double` value read as an exact number: the fraction
`num / den` of two integers, `den` positive. No rounding is modelled. -/
structure Dbl where
  num : Int
  den : Nat
deriving DecidableEq, Repr

/-- Conversion of an integer to floating point, and the value of a floating
constant such as `1000.0`. -/
def Dbl.ofInt (n : Int) : Dbl := ⟨n, 1⟩

/-- Exact product. -/
def Dbl.mul (a b : Dbl) : Dbl := ⟨a.num * b.num, a.den * b.den⟩

/-- Exact difference. -/
def Dbl.sub (a b : Dbl) : Dbl := ⟨a.num * b.den - b.num * a.den, a.den * b.den⟩

/-- Exact quotient, for a divisor other than zero. -/
def Dbl.div (a b : Dbl) : Dbl := ⟨a.num * b.den * b.num.sign, a.den * b.num.natAbs⟩

/-- The comparison `a < b`. -/
def Dbl.lt (a b : Dbl) : Bool := decide (a.num * b.den < b.num * a.den)

/-- The comparison `a >= b`. -/
def Dbl.ge (a b : Dbl) : Bool := !Dbl.lt a b

/-- The casts `(int) a` and `(long) a`: the fraction is cut off towards zero.
The value is taken to fit the integer type. -/
def Dbl.trunc (a : Dbl) : Int := Int.tdiv a.num a.den

/-! ## `IntervalToString` -/

/-- The text that `IntervalToString` passes to `sformat`, branch by branch. -/
def IntervalText (millisecs : Nat) : List Char :=
  let seconds := Dbl.div (Dbl.ofInt millisecs) (Dbl.ofInt 1000)
  if millisecs < 1000 then
    fmtSpace 3 (toLongLong millisecs) ++ "ms".toList
  else if Dbl.lt seconds (Dbl.ofInt 10) then
    let s := Dbl.trunc seconds
    let ms := (((millisecs : Int) - 1000 * s) % 2 ^ 64).toNat
    fmtSpace 2 s ++ "s".toList ++ fmtZero 3 (toLongLong ms)
  else if Dbl.lt seconds (Dbl.ofInt 60) then
    let s := Dbl.trunc seconds
    fmtSpace 2 s ++ "s".toList
  else if Dbl.lt seconds (Dbl.mul (Dbl.ofInt 60) (Dbl.ofInt 60)) then
    let mins := Dbl.trunc (Dbl.div seconds (Dbl.ofInt 60))
    let secs := Dbl.trunc (Dbl.sub seconds (Dbl.mul (Dbl.ofInt mins) (Dbl.ofInt 60)))
    fmtSpace 2 mins ++ "m".toList ++ fmtZero 2 secs ++ "s".toList
  else if Dbl.lt seconds (Dbl.mul (Dbl.mul (Dbl.ofInt 24) (Dbl.ofInt 60)) (Dbl.ofInt 60)) then
    let hours := Dbl.trunc (Dbl.div seconds (Dbl.mul (Dbl.ofInt 60) (Dbl.ofInt 60)))
    let mins := Dbl.trunc (Dbl.div
      (Dbl.sub seconds (Dbl.mul (Dbl.mul (Dbl.ofInt hours) (Dbl.ofInt 60)) (Dbl.ofInt 60)))
      (Dbl.ofInt 60))
    fmtSpace 2 hours ++ "h".toList ++ fmtZero 2 mins ++ "m".toList
  else
    let days := Dbl.trunc (Dbl.div seconds
      (Dbl.mul (Dbl.mul (Dbl.ofInt 24) (Dbl.ofInt 60)) (Dbl.ofInt 60)))
    let hours := Dbl.trunc (Dbl.div
      (Dbl.sub seconds
        (Dbl.mul (Dbl.mul (Dbl.mul (Dbl.ofInt days) (Dbl.ofInt 24)) (Dbl.ofInt 60)) (Dbl.ofInt 60)))
      (Dbl.mul (Dbl.ofInt 60) (Dbl.ofInt 60)))
    fmtSpace 2 days ++ "d".toList ++ fmtZero 2 hours ++ "h".toList

/-- The function `IntervalToString(millisecs, buffer, size)`: the returned
`bool` and the string left in `buffer`. -/
def IntervalToString (millisecs : Nat) (size : Nat) : Bool × List Char :=
  (true, sformat size (IntervalText millisecs))

/-! ## `pretty_print_bytes` and `pretty_print_count` -/

/-- The loops `while (count >= limit && sIndex < 7) { sIndex++; count /= divisor; }`
on the pair `(sIndex, count)`, at most `fuel` passes; `none` when the loop is
still running after that many. -/
def scaleLoop (limit divisor : Int) : Nat → Nat × Dbl → Option (Nat × Dbl)
  | 0, _ => none
  | fuel + 1, (sIndex, count) =>
    if Dbl.ge count (Dbl.ofInt limit) && decide (sIndex < 7) then
      scaleLoop limit divisor fuel (sIndex + 1, Dbl.div count (Dbl.ofInt divisor))
    else some (sIndex, count)

/-- The table `suffixes` of `pretty_print_bytes`. -/
def byteSuffixes : List (List Char) :=
  ["B".toList, "kB".toList, "MB".toList, "GB".toList, "TB".toList, "PB".toList, "EB".toList]

/-- The table `suffixes` of `pretty_print_count`. -/
def countSuffixes : List (List Char) :=
  ["".toList, "".toList, "million".toList, "billion".toList, "trillion".toList,
    "quadrillion".toList, "quintillion".toList]

/-- The call `sformat(buffer, size, "%d %s", (int) count, suffixes[sIndex])`
that ends both functions, on what the loop returned: the string left in
`buffer`; `none` stands for a loop that did not end or for a read outside the
table `suffixes`. -/
def suffixText (suffixes : List (List Char)) (size : Nat) :
    Option (Nat × Dbl) → Option (List Char)
  | none => none
  | some (sIndex, count) =>
    match suffixes.get? sIndex with
    | none => none
    | some suffix => some (sformat size (decimal (Dbl.trunc count) ++ " ".toList ++ suffix))

/-- The function `pretty_print_bytes(buffer, size, bytes)`: the string left in
`buffer`. The loop makes at most 7 passes that go on and one that ends it. -/
def pretty_print_bytes (size : Nat) (bytes : Nat) : Option (List Char) :=
  suffixText byteSuffixes size (scaleLoop 10240 1024 8 (0, Dbl.ofInt bytes))

/-- The function `pretty_print_count(buffer, size, number)`: the string left
in `buffer`. -/
def pretty_print_count (size : Nat) (number : Nat) : Option (List Char) :=
  if number < 1000 then some (sformat size (decimal (toLongLong number)))
  else if number < 1000 * 1000 then
    let t : Int := (number / 1000 : Nat)
    let u : Int := toLongLong (((number : Int) - t * 1000) % 2 ^ 64).toNat
    some (sformat size (decimal t ++ " ".toList ++ decimal u))
  else suffixText countSuffixes size (scaleLoop 10000 1000 8 (0, Dbl.ofInt number))

/-! ## One pass of the scan loop of `repl_str` -/

/-- How one pass of the scan loop ends: the loop is left, `realloc` fails, or
the loop goes on with new values of the variables. -/
inductive ScanPass where
  | exit : ScanPass
  | fail : ScanPass
  | next (st : ScanState) : ScanPass
deriving DecidableEq, Repr

/-- One pass of `while ((pstr2 = strstr(pstr, from)) != NULL) { ... }`. -/
def scanPass (alloc : Nat → Bool) (str from_ : List Char) (st : ScanState) : ScanPass :=
  match strstr (str.drop st.pstr) from_ with
  | none => ScanPass.exit
  | some j =>
    let count := st.count + 1
    let pstr2 := st.pstr + j
    if st.cache_sz < count then
      let cache_sz := st.cache_sz + st.cache_sz_inc
      if alloc (8 * cache_sz % 2 ^ 64) = false then ScanPass.fail
      else
        let inc := st.cache_sz_inc * 3
        ScanPass.next
          { pstr := pstr2 + from_.length
            count := count
            pos_cache := st.pos_cache ++ [pstr2]
            cache_sz := cache_sz
            cache_sz_inc := if inc > 1048576 then 1048576 else inc }
    else
      ScanPass.next
        { st with
          pstr := pstr2 + from_.length
          count := count
          pos_cache := st.pos_cache ++ [pstr2] }

/-- The pattern `pat` occurs in `str` at offset `q`:
`str[q .. q + |pat|) = pat`, inside the string. -/
def OccursAt (str pat : List Char) (q : Nat) : Prop :=
  q + pat.length ≤ str.length ∧ (str.drop q).take pat.length = pat

instance (str pat : List Char) (q : Nat) : Decidable (OccursAt str pat q) := by
  unfold OccursAt
  infer_instance

/-- What is to hold of the position cache `ps` of a scan that has reached
offset `e` of `str`: every entry is the start of an occurrence of `pat`; an entry is
at or after the end of every match before it, so matches do not overlap and
the entries increase strictly; every match ends at or before `e`; and every
occurrence of `pat` that ends at or before `e` overlaps a recorded match, that
is, none lies wholly inside a gap before, between or after the matches. -/
def CacheInv (str pat : List Char) (ps : List Nat) (e : Nat) : Prop :=
  (∀ p ∈ ps, OccursAt str pat p) ∧
  List.Pairwise (fun a b => a + pat.length ≤ b) ps ∧
  List.Pairwise (fun a b => a < b) ps ∧
  (∀ p ∈ ps, p + pat.length ≤ e) ∧
  ∀ q, OccursAt str pat q → q + pat.length ≤ e →
    ∃ p ∈ ps, q < p + pat.length ∧ p < q + pat.length

/-- The invariant of the scan loop: `count` is the number of cache entries,
`pstr` is inside the string, at the end of the last match (at the start of
the string before the first match), and `CacheInv` holds up to `pstr`. -/
def ScanInv (str pat : List Char) (st : ScanState) : Prop :=
  st.count = st.pos_cache.length ∧ st.pstr ≤ str.length ∧
  st.pstr = (match st.pos_cache.getLast? with
    | none => 0
    | some p => p + pat.length) ∧
  CacheInv str pat st.pos_cache st.pstr

/-! ## Whole numerals -/

/-- The string is one decimal numeral from its first to its last character,
as `strtoll` and `strtoull` read it: white space, an optional sign, then one
digit or more, and nothing after the digits. -/
def WholeNumeral (s : List Char) : Prop :=
  ∃ ws sign ds, s = ws ++ sign ++ ds ∧ (∀ c ∈ ws, isspace c = true) ∧
    (sign = [] ∨ sign = ['-'] ∨ sign = ['+']) ∧ ds ≠ [] ∧ ∀ c ∈ ds, isdigit c = true

/-! # Theorems -/

/-! ### The embedding evaluated on small inputs -/

example : stringToInt (some "42".toList) (some 0) = (true, some 42) := by decide
example : stringToInt (some " -42".toList) (some 0) = (true, some (-42)) := by decide
example : stringToInt (some "42 ".toList) (some 7) = (false, some 7) := by decide
example : stringToInt (some "".toList) (some 7) = (false, some 7) := by decide
example : stringToInt none (some 7) = (false, some 7) := by decide
example : stringToShort (some "32767".toList) (some 7) = (true, some 32767) := by decide
example : stringToShort (some "32768".toList) (some 7) = (false, some 7) := by decide
example : stringToInt64 (some "9223372036854775808".toList) (some 7) = (false, some 7) := by
  decide
example : stringToUInt64 (some "18446744073709551615".toList) (some 7)
    = (true, some 18446744073709551615) := by
  decide
example : stringToUInt64 (some "18446744073709551616".toList) (some 7) = (false, some 7) := by
  decide
example : decimal 0 = "0".toList := by decide
example : decimal (-9223372036854775808) = "-9223372036854775808".toList := by decide
example : (intToString 1234).strValue = "1234".toList := by decide
example : repl_str allocOk 10 "hello world".toList "o".toList []
    = some (Ret.str "hell wrld".toList) := by decide
example : repl_str allocOk 10 "aaa".toList "aa".toList "b".toList
    = some (Ret.str "ba".toList) := by decide
example : (splitLines (some "a\nb\n\nc".toList) (some ()) 2).map (fun r => (r.ret, r.segments))
    = some (2, ["a".toList, "b".toList]) := by decide
example : splitLines none (some ()) 2 = some ⟨0, [], []⟩ := by decide
example : splitLines (some "a".toList) none 2 = some ⟨-1, "a".toList, []⟩ := by decide
example : linesOf "a\nb\n\nc".toList = ["a".toList, "b".toList, [], "c".toList] := by decide
example : linesOf "\na\n".toList = [[], "a".toList] := by decide

/-! ### Characters and digit runs -/

theorem isdigit_digitChr (d : Nat) (h : d < 10) : isdigit (digitChr d) = true := by
  interval_cases d <;> decide

theorem digitVal_digitChr (d : Nat) (h : d < 10) : digitVal (digitChr d) = d := by
  interval_cases d <;> decide

theorem isspace_eq_false_of_isdigit (c : Char) (h : isdigit c = true) : isspace c = false := by
  simp only [isspace, Bool.or_eq_false_iff, decide_eq_false_iff_not]
  refine ⟨⟨⟨⟨⟨?_, ?_⟩, ?_⟩, ?_⟩, ?_⟩, ?_⟩ <;> (rintro rfl; revert h; decide)

theorem ne_minus_of_isdigit (c : Char) (h : isdigit c = true) : c ≠ '-' := by
  rintro rfl; revert h; decide

theorem ne_plus_of_isdigit (c : Char) (h : isdigit c = true) : c ≠ '+' := by
  rintro rfl; revert h; decide

theorem digitsVal_append_singleton (ds : List Char) (c : Char) :
    digitsVal (ds ++ [c]) = 10 * digitsVal ds + digitVal c := by
  simp [digitsVal, List.foldl_append]

/-- The digit loop, given enough fuel, puts in front of `acc` a non-empty run
of digits whose value is `n` and that has no more than `k` characters when
`n < 10 ^ k`. -/
theorem decimalAux_spec : ∀ (fuel n : Nat) (acc : List Char), n < fuel →
    ∃ ds, decimalAux fuel n acc = ds ++ acc ∧ ds ≠ [] ∧ (∀ c ∈ ds, isdigit c = true) ∧
      digitsVal ds = n ∧ ∀ k, 0 < k → n < 10 ^ k → ds.length ≤ k := by
  intro fuel
  induction fuel with
  | zero => intro n acc h; omega
  | succ f ih =>
    intro n acc h
    unfold decimalAux
    by_cases h0 : n / 10 = 0
    · have hn : n < 10 := by omega
      refine ⟨[digitChr (n % 10)], by simp [h0], by simp, ?_, ?_, ?_⟩
      · intro c hc
        simp only [List.mem_singleton] at hc
        subst hc
        exact isdigit_digitChr _ (Nat.mod_lt _ (by decide))
      · simp [digitsVal, Nat.mod_eq_of_lt hn, digitVal_digitChr n hn]
      · intro k hk _
        simpa using hk
    · have hlt : n / 10 < f := by omega
      obtain ⟨ds, hds, hne, hdig, hval, hlen⟩ := ih (n / 10) (digitChr (n % 10) :: acc) hlt
      refine ⟨ds ++ [digitChr (n % 10)], by simp [h0, hds], by simp, ?_, ?_, ?_⟩
      · intro c hc
        rcases List.mem_append.mp hc with hc | hc
        · exact hdig c hc
        · simp only [List.mem_singleton] at hc
          subst hc
          exact isdigit_digitChr _ (Nat.mod_lt _ (by decide))
      · rw [digitsVal_append_singleton, hval,
          digitVal_digitChr _ (Nat.mod_lt n (by decide : 10 > 0))]
        omega
      · intro k hk hnk
        obtain ⟨k', rfl⟩ : ∃ k', k = k' + 1 := ⟨k - 1, by omega⟩
        have hk' : 0 < k' := by
          rcases Nat.eq_zero_or_pos k' with h | h
          · subst h; simp at hnk; omega
          · exact h
        have : n / 10 < 10 ^ k' := by
          rw [Nat.div_lt_iff_lt_mul (by decide)]
          rw [pow_succ] at hnk
          exact hnk
        have := hlen k' hk' this
        simp
        omega

theorem natDecimal_spec (n : Nat) :
    natDecimal n ≠ [] ∧ (∀ c ∈ natDecimal n, isdigit c = true) ∧
      digitsVal (natDecimal n) = n ∧ ∀ k, 0 < k → n < 10 ^ k → (natDecimal n).length ≤ k := by
  obtain ⟨ds, hds, h⟩ := decimalAux_spec (n + 1) n [] (Nat.lt_succ_self n)
  have : natDecimal n = ds := by simpa [natDecimal] using hds
  rw [this]
  exact h

/-! ### The subject sequence -/

theorem takeWhile_eq_self_of_all {p : Char → Bool} :
    ∀ (l : List Char), (∀ c ∈ l, p c = true) → l.takeWhile p = l ∧ l.dropWhile p = []
  | [], _ => by simp
  | c :: t, h => by
    have hc := h c (List.mem_cons_self _ _)
    have ht := takeWhile_eq_self_of_all t (fun x hx => h x (List.mem_cons_of_mem _ hx))
    simp [List.takeWhile_cons, List.dropWhile_cons, hc, ht.1, ht.2]

theorem subject_digits (ds : List Char) (hne : ds ≠ []) (hd : ∀ c ∈ ds, isdigit c = true) :
    subject ds = (0, false, ds, []) := by
  obtain ⟨c, t, rfl⟩ := List.exists_cons_of_ne_nil hne
  have hc := hd c (List.mem_cons_self _ _)
  have hsp := isspace_eq_false_of_isdigit c hc
  have h1 := ne_minus_of_isdigit c hc
  have h2 := ne_plus_of_isdigit c hc
  have ht := takeWhile_eq_self_of_all (p := isdigit) (c :: t) hd
  have e1 : (c :: t).takeWhile isspace = [] := by simp [List.takeWhile_cons, hsp]
  have e2 : (c :: t).dropWhile isspace = c :: t := by simp [List.dropWhile_cons, hsp]
  simp only [subject, e1, e2, List.head?_cons, Option.some.injEq, h1, h2, or_self, if_false,
    List.drop_zero, List.length_nil, ht.1, ht.2, decide_False, add_zero]

theorem subject_minus_digits (ds : List Char) (hd : ∀ c ∈ ds, isdigit c = true) :
    subject ('-' :: ds) = (1, true, ds, []) := by
  have ht := takeWhile_eq_self_of_all (p := isdigit) ds hd
  have hsp : isspace '-' = false := by decide
  simp only [subject, List.takeWhile_cons, List.dropWhile_cons, hsp, List.head?_cons]
  simp [ht.1, ht.2]

/-- Every input is some skipped characters, then the digits of the subject
sequence, then what `endptr` points to. -/
theorem subject_decomp (s : List Char) :
    ∃ pre, s = pre ++ (subject s).2.2.1 ++ (subject s).2.2.2 ∧
      ∀ c ∈ (subject s).2.2.1, isdigit c = true := by
  simp only [subject]
  refine ⟨s.takeWhile isspace ++ (s.dropWhile isspace).take
      (if (s.dropWhile isspace).head? = some '-' ∨ (s.dropWhile isspace).head? = some '+'
        then 1 else 0), ?_, ?_⟩
  · rw [List.append_assoc, List.append_assoc, List.takeWhile_append_dropWhile,
      List.take_append_drop, List.takeWhile_append_dropWhile]
  · intro c hc
    exact (List.mem_takeWhile_imp hc)

/-! ### `strtoll` and `strtoull` on canonical numerals -/

theorem strtoll_decimal (v : Int) :
    ∃ len, 0 < len ∧ strtoll (decimal v) =
      if v < LLONG_MIN then ⟨LLONG_MIN, len, [], true⟩
      else if v > LLONG_MAX then ⟨LLONG_MAX, len, [], true⟩
      else ⟨v, len, [], false⟩ := by
  obtain ⟨hne, hdig, hval, -⟩ := natDecimal_spec v.natAbs
  have hlen : 0 < (natDecimal v.natAbs).length := List.length_pos.mpr hne
  by_cases hv : v < 0
  · refine ⟨1 + (natDecimal v.natAbs).length, by omega, ?_⟩
    have hval' : -((digitsVal (natDecimal v.natAbs) : Nat) : Int) = v := by
      rw [hval]; omega
    simp only [decimal, hv, if_true, strtoll, subject_minus_digits _ hdig, hne, if_false,
      hval']
  · refine ⟨0 + (natDecimal v.natAbs).length, by omega, ?_⟩
    have hval' : ((digitsVal (natDecimal v.natAbs) : Nat) : Int) = v := by
      rw [hval]; omega
    simp only [decimal, hv, if_false, strtoll, subject_digits _ hne hdig, hne,
      hval', Bool.false_eq_true]

theorem strtoull_decimal_nonneg (v : Int) (hv : 0 ≤ v) :
    ∃ len, 0 < len ∧ strtoull (decimal v) =
      if v.toNat > ULLONG_MAX then ⟨ULLONG_MAX, len, [], true⟩
      else ⟨v.toNat, len, [], false⟩ := by
  obtain ⟨hne, hdig, hval, -⟩ := natDecimal_spec v.natAbs
  have hlen : 0 < (natDecimal v.natAbs).length := List.length_pos.mpr hne
  refine ⟨0 + (natDecimal v.natAbs).length, by omega, ?_⟩
  have hnot : ¬ v < 0 := by omega
  have hval' : digitsVal (natDecimal v.natAbs) = v.toNat := by
    rw [hval]; omega
  simp only [decimal, hnot, if_false, strtoull, subject_digits _ hne hdig, hne,
    hval', Bool.false_eq_true]

/-- A signed parser on the canonical numeral of `v`. -/
theorem parseSigned_decimal (lo hi v old : Int) (hlo : LLONG_MIN ≤ lo) (hhi : hi ≤ LLONG_MAX) :
    parseSigned lo hi (some (decimal v)) (some old) =
      if lo ≤ v ∧ v ≤ hi then (true, some v) else (false, some old) := by
  obtain ⟨len, hlen, h⟩ := strtoll_decimal v
  have hlen' : len ≠ 0 := by omega
  simp only [parseSigned, h]
  by_cases h1 : v < LLONG_MIN
  · have : ¬ (lo ≤ v ∧ v ≤ hi) := by omega
    simp [h1, this, hlen']
  · by_cases h2 : v > LLONG_MAX
    · have : ¬ (lo ≤ v ∧ v ≤ hi) := by omega
      simp [h1, h2, this, hlen']
    · simp only [h1, h2, if_false, hlen', Bool.false_eq_true, ne_eq, not_true_eq_false]
      by_cases h3 : lo ≤ v ∧ v ≤ hi
      · have : ¬ (v < lo ∨ v > hi) := by omega
        simp [h3, this]
      · have : (v < lo ∨ v > hi) := by omega
        simp [h3, this]

/-- An unsigned parser on the canonical numeral of a non-negative `v`. -/
theorem parseUnsigned_decimal_nonneg (hi : Nat) (v : Int) (old : Nat) (hv : 0 ≤ v)
    (hhi : hi ≤ ULLONG_MAX) :
    parseUnsigned hi (some (decimal v)) (some old) =
      if v ≤ hi then (true, some v.toNat) else (false, some old) := by
  obtain ⟨len, hlen, h⟩ := strtoull_decimal_nonneg v hv
  have hlen' : len ≠ 0 := by omega
  simp only [parseUnsigned, h]
  by_cases h1 : v.toNat > ULLONG_MAX
  · have : ¬ (v ≤ hi) := by omega
    simp [h1, this, hlen']
  · simp only [h1, if_false, hlen', Bool.false_eq_true, ne_eq, not_true_eq_false]
    by_cases h3 : v ≤ (hi : Int)
    · have : ¬ (v.toNat > hi) := by omega
      simp [h3, this]
    · have : (v.toNat > hi) := by omega
      simp [h3, this]

/-! ### Accepted inputs end in a digit -/

theorem getLast?_of_append_digits (pre ds : List Char) (hne : ds ≠ [])
    (hd : ∀ c ∈ ds, isdigit c = true) :
    ∃ c, (pre ++ ds).getLast? = some c ∧ isdigit c = true := by
  refine ⟨ds.getLast hne, ?_, hd _ (List.getLast_mem hne)⟩
  rw [List.getLast?_append_of_ne_nil pre hne, List.getLast?_eq_getLast _ hne]

theorem parseSigned_true_last (lo hi : Int) (s : List Char) (number : Option Int)
    (h : (parseSigned lo hi (some s) number).1 = true) :
    ∃ c, s.getLast? = some c ∧ isdigit c = true := by
  obtain ⟨pre, hs, hd⟩ := subject_decomp s
  cases number with
  | none => simp [parseSigned] at h
  | some old =>
    simp only [parseSigned, strtoll] at h
    by_cases hds : (subject s).2.2.1 = []
    · simp [hds] at h
    · by_cases hrest : (subject s).2.2.2 = []
      · rw [hrest, List.append_nil] at hs
        rw [hs]
        exact getLast?_of_append_digits pre _ hds hd
      · exfalso
        simp only [hds, if_false] at h
        split_ifs at h

theorem parseUnsigned_true_last (hi : Nat) (s : List Char) (number : Option Nat)
    (h : (parseUnsigned hi (some s) number).1 = true) :
    ∃ c, s.getLast? = some c ∧ isdigit c = true := by
  obtain ⟨pre, hs, hd⟩ := subject_decomp s
  cases number with
  | none => simp [parseUnsigned] at h
  | some old =>
    simp only [parseUnsigned, strtoull] at h
    by_cases hds : (subject s).2.2.1 = []
    · simp [hds] at h
    · by_cases hrest : (subject s).2.2.2 = []
      · rw [hrest, List.append_nil] at hs
        rw [hs]
        exact getLast?_of_append_digits pre _ hds hd
      · exfalso
        simp only [hds, if_false] at h
        split_ifs at h

theorem strtoll_value_range (s : List Char) :
    LLONG_MIN ≤ (strtoll s).value ∧ (strtoll s).value ≤ LLONG_MAX := by
  unfold strtoll
  split
  rename_i skipped neg ds rest _
  by_cases hds : ds = []
  · simp only [hds, if_true]; decide
  · simp only [hds, if_false]
    split_ifs with h1 h2 h3 h4
    all_goals (constructor <;> simp only [LLONG_MIN, LLONG_MAX] at * <;> omega)

theorem parseSigned_true_value (lo hi : Int) (s : List Char) (number : Option Int) (v : Int)
    (h : parseSigned lo hi (some s) number = (true, some v)) :
    lo ≤ v ∧ v ≤ hi ∧ LLONG_MIN ≤ v ∧ v ≤ LLONG_MAX := by
  have hr := strtoll_value_range s
  cases number with
  | none => simp [parseSigned] at h
  | some old =>
    simp only [parseSigned] at h
    split_ifs at h with h1 h2 h3 h4
    all_goals simp only [Prod.mk.injEq, Option.some.injEq, true_and, Bool.false_eq_true,
      false_and] at h
    subst h
    omega

/-- C2: each signed parser accepts the canonical decimal numeral of an integer
`v` exactly when `v` lies between the minimum and the maximum of its target
type, and then stores exactly `v`; otherwise it returns false and leaves the
slot as it was. -/
theorem signed_parsers_accept_exactly_range (v old : Int) :
    stringToShort (some (decimal v)) (some old)
        = (if SHRT_MIN ≤ v ∧ v ≤ SHRT_MAX then (true, some v) else (false, some old)) ∧
    stringToInt (some (decimal v)) (some old)
        = (if INT_MIN ≤ v ∧ v ≤ INT_MAX then (true, some v) else (false, some old)) ∧
    stringToInt32 (some (decimal v)) (some old)
        = (if INT32_MIN ≤ v ∧ v ≤ INT32_MAX then (true, some v) else (false, some old)) ∧
    stringToInt64 (some (decimal v)) (some old)
        = (if INT64_MIN ≤ v ∧ v ≤ INT64_MAX then (true, some v) else (false, some old)) :=
  ⟨parseSigned_decimal _ _ v old (by decide) (by decide),
   parseSigned_decimal _ _ v old (by decide) (by decide),
   parseSigned_decimal _ _ v old (by decide) (by decide),
   parseSigned_decimal _ _ v old (by decide) (by decide)⟩

/-- The unsigned parsers on the canonical numeral of a non-negative integer:
accepted exactly when it is at most the maximum of the target type. -/
theorem unsigned_parsers_on_nonneg (v : Int) (old : Nat) (hv : 0 ≤ v) :
    stringToUShort (some (decimal v)) (some old)
        = (if v ≤ USHRT_MAX then (true, some v.toNat) else (false, some old)) ∧
    stringToUInt (some (decimal v)) (some old)
        = (if v ≤ UINT_MAX then (true, some v.toNat) else (false, some old)) ∧
    stringToUInt32 (some (decimal v)) (some old)
        = (if v ≤ UINT32_MAX then (true, some v.toNat) else (false, some old)) ∧
    stringToUInt64 (some (decimal v)) (some old)
        = (if v ≤ UINT64_MAX then (true, some v.toNat) else (false, some old)) :=
  ⟨parseUnsigned_decimal_nonneg _ v old hv (by decide),
   parseUnsigned_decimal_nonneg _ v old hv (by decide),
   parseUnsigned_decimal_nonneg _ v old hv (by decide),
   parseUnsigned_decimal_nonneg _ v old hv (by decide)⟩

/-- C3: the unsigned parsers accept negative numerals. `strtoull` negates
modulo `2 ^ 64`, so `stringToUInt64` turns `"-1"` into 18446744073709551615 and
the narrower parsers turn `"-18446744073709551615"` into 1, where the claim
wants every negative numeral rejected. -/
theorem unsigned_parsers_accept_negative_numerals :
    decimal (-1) = "-1".toList ∧
    stringToUInt64 (some "-1".toList) (some 0) = (true, some 18446744073709551615) ∧
    stringToUShort (some "-18446744073709551615".toList) (some 0) = (true, some 1) ∧
    stringToUInt (some "-18446744073709551615".toList) (some 0) = (true, some 1) ∧
    stringToUInt32 (some "-18446744073709551615".toList) (some 0) = (true, some 1) := by
  decide

theorem decimal_length_int64 (n : Int) (hlo : INT64_MIN ≤ n) (hhi : n ≤ INT64_MAX) :
    (decimal n).length ≤ 20 := by
  obtain ⟨-, -, -, hlen⟩ := natDecimal_spec n.natAbs
  have hb : n.natAbs < 10 ^ 19 := by
    simp only [INT64_MIN, INT64_MAX] at hlo hhi
    norm_num
    omega
  have := hlen 19 (by decide) hb
  unfold decimal
  split_ifs
  · simp only [List.length_cons]; omega
  · omega

/-- C6: for every 64-bit signed `n`, `intToString n` holds `n` and its canonical
decimal numeral, which fits the capacity `INTSTRING_MAX_DIGITS` with its
terminator, and `stringToInt64` reads `n` back from it. Moreover every value
`v` that `stringToInt64` accepts from any string is a 64-bit signed integer,
so that parsing the formatted `v` gives `v` again. -/
theorem intToString_stringToInt64_roundtrip (n : Int)
    (hlo : INT64_MIN ≤ n) (hhi : n ≤ INT64_MAX) :
    (intToString n).intValue = n ∧
    (intToString n).strValue = decimal n ∧
    (decimal n).length + 1 ≤ INTSTRING_MAX_DIGITS ∧
    (∀ old, stringToInt64 (some (intToString n).strValue) (some old) = (true, some n)) ∧
    (∀ s number v, stringToInt64 (some s) number = (true, some v) →
      INT64_MIN ≤ v ∧ v ≤ INT64_MAX ∧
      ∀ old, stringToInt64 (some (intToString v).strValue) (some old) = (true, some v)) := by
  have key : ∀ m : Int, INT64_MIN ≤ m → m ≤ INT64_MAX →
      (intToString m).strValue = decimal m ∧
      ∀ old, stringToInt64 (some (intToString m).strValue) (some old) = (true, some m) := by
    intro m h1 h2
    have hl := decimal_length_int64 m h1 h2
    have hs : (intToString m).strValue = decimal m := by
      simp only [intToString, sformat, INTSTRING_MAX_DIGITS]
      exact List.take_of_length_le (by omega)
    refine ⟨hs, fun old => ?_⟩
    rw [hs]
    have := parseSigned_decimal INT64_MIN INT64_MAX m old (by decide) (by decide)
    simpa [stringToInt64, h1, h2] using this
  refine ⟨rfl, (key n hlo hhi).1, ?_, (key n hlo hhi).2, ?_⟩
  · have := decimal_length_int64 n hlo hhi
    simp only [INTSTRING_MAX_DIGITS]; omega
  · intro s number v hv
    obtain ⟨h1, h2, -, -⟩ := parseSigned_true_value _ _ s number v hv
    exact ⟨h1, h2, (key v h1 h2).2⟩

/-- The round trip at `-42`. -/
theorem intToString_stringToInt64_roundtrip_witness :
    (intToString (-42)).intValue = -42 ∧
    (intToString (-42)).strValue = decimal (-42) ∧
    (decimal (-42)).length + 1 ≤ INTSTRING_MAX_DIGITS ∧
    (∀ old, stringToInt64 (some (intToString (-42)).strValue) (some old) = (true, some (-42))) ∧
    (∀ s number v, stringToInt64 (some s) number = (true, some v) →
      INT64_MIN ≤ v ∧ v ≤ INT64_MAX ∧
      ∀ old, stringToInt64 (some (intToString v).strValue) (some old) = (true, some v)) :=
  intToString_stringToInt64_roundtrip (-42) (by decide) (by decide)

/-! ### Lines of a buffer -/

theorem strchr_none_of_not_mem (c : Char) : ∀ s : List Char, c ∉ s → strchr s c = none
  | [], _ => rfl
  | x :: t, h => by
    have hx : x ≠ c := fun e => h (e ▸ List.mem_cons_self _ _)
    have ht : c ∉ t := fun m => h (List.mem_cons_of_mem _ m)
    simp [strchr, hx, strchr_none_of_not_mem c t ht]

theorem strchr_append (c : Char) : ∀ (pre post : List Char), c ∉ pre →
    strchr (pre ++ c :: post) c = some pre.length
  | [], post, _ => by simp [strchr]
  | x :: t, post, h => by
    have hx : x ≠ c := fun e => h (e ▸ List.mem_cons_self _ _)
    have ht : c ∉ t := fun m => h (List.mem_cons_of_mem _ m)
    simp [strchr, hx, strchr_append c t post ht]

/-- A buffer either has no newline or is a first line, a newline, and more. -/
theorem first_line_cases : ∀ rest : List Char,
    '\n' ∉ rest ∨ ∃ line rest', rest = line ++ '\n' :: rest' ∧ '\n' ∉ line
  | [] => Or.inl (by simp)
  | x :: t => by
    by_cases hx : x = '\n'
    · exact Or.inr ⟨[], t, by simp [hx], by simp⟩
    · rcases first_line_cases t with h | ⟨line, rest', h, hl⟩
      · left
        simp only [List.mem_cons, not_or]
        exact ⟨fun e => hx e.symm, h⟩
      · right
        refine ⟨x :: line, rest', by simp [h], ?_⟩
        simp only [List.mem_cons, not_or]
        exact ⟨fun e => hx e.symm, hl⟩

theorem linesOf_no_newline : ∀ rest : List Char, rest ≠ [] → '\n' ∉ rest → linesOf rest = [rest]
  | [], h, _ => absurd rfl h
  | x :: t, _, h => by
    have hx : x ≠ '\n' := fun e => h (e ▸ List.mem_cons_self _ _)
    have ht : '\n' ∉ t := fun m => h (List.mem_cons_of_mem _ m)
    cases t with
    | nil => simp [linesOf, hx]
    | cons y u =>
      have := linesOf_no_newline (y :: u) (by simp) ht
      rw [linesOf, if_neg hx, this]

theorem linesOf_line : ∀ (line rest' : List Char), '\n' ∉ line →
    linesOf (line ++ '\n' :: rest') = line :: linesOf rest'
  | [], rest', _ => by simp [linesOf]
  | x :: t, rest', h => by
    have hx : x ≠ '\n' := fun e => h (e ▸ List.mem_cons_self _ _)
    have ht : '\n' ∉ t := fun m => h (List.mem_cons_of_mem _ m)
    have := linesOf_line t rest' ht
    rw [List.cons_append, linesOf, if_neg hx, this]

theorem linesOf_eq_nil_iff (rest : List Char) : linesOf rest = [] ↔ rest = [] := by
  constructor
  · intro h
    cases rest with
    | nil => rfl
    | cons x t =>
      exfalso
      simp only [linesOf] at h
      split_ifs at h
      split at h <;> simp at h
  · rintro rfl; rfl

theorem linesOf_length_le (rest : List Char) : (linesOf rest).length ≤ rest.length := by
  induction rest with
  | nil => simp [linesOf]
  | cons x t ih =>
    simp only [linesOf]
    split_ifs
    · simpa using ih
    · split
      · simp
      · rename_i p ps h
        rw [h] at ih
        simp at ih ⊢
        omega

theorem linesOf_no_newline_mem (rest : List Char) : ∀ l ∈ linesOf rest, '\n' ∉ l := by
  induction rest with
  | nil => simp [linesOf]
  | cons x t ih =>
    simp only [linesOf]
    split_ifs with hx
    · intro l hl
      rcases List.mem_cons.mp hl with h | h
      · subst h; simp
      · exact ih l h
    · split
      · intro l hl
        simp only [List.mem_singleton] at hl
        subst hl
        simp only [List.mem_singleton]
        exact fun e => hx e.symm
      · rename_i p ps h
        rw [h] at ih
        intro l hl
        rcases List.mem_cons.mp hl with h' | h'
        · subst h'
          have := ih p (List.mem_cons_self _ _)
          simp only [List.mem_cons, not_or]
          exact ⟨fun e => hx e.symm, this⟩
        · exact ih l (List.mem_cons_of_mem _ h')

/-! ### The loop of `splitLines` -/

theorem takeWhile_append_stop {p : Char → Bool} (x : Char) (tail : List Char)
    (hx : p x = false) : ∀ line : List Char, (∀ c ∈ line, p c = true) →
    (line ++ x :: tail).takeWhile p = line
  | [], _ => by simp [List.takeWhile_cons, hx]
  | y :: t, h => by
    have hy := h y (List.mem_cons_self _ _)
    have ht := takeWhile_append_stop x tail hx t (fun c hc => h c (List.mem_cons_of_mem _ hc))
    simp [List.takeWhile_cons, hy, ht]

theorem takeWhile_all {p : Char → Bool} : ∀ line : List Char, (∀ c ∈ line, p c = true) →
    line.takeWhile p = line
  | [], _ => rfl
  | y :: t, h => by
    have hy := h y (List.mem_cons_self _ _)
    have ht := takeWhile_all t (fun c hc => h c (List.mem_cons_of_mem _ hc))
    simp [List.takeWhile_cons, hy, ht]

theorem takeWhile_nul_append (line tail : List Char) (h : NulFree line) :
    (line ++ Char.ofNat 0 :: tail).takeWhile (fun c => c ≠ Char.ofNat 0) = line :=
  takeWhile_append_stop _ tail (by simp) line (fun c hc => by simpa using h c hc)

theorem takeWhile_nul_self (line : List Char) (h : NulFree line) :
    line.takeWhile (fun c => c ≠ Char.ofNat 0) = line :=
  takeWhile_all line (fun c hc => by simpa using h c hc)

theorem cstrAt_append (done rest : List Char) :
    cstrAt (done ++ rest) done.length = rest.takeWhile (fun c => c ≠ Char.ofNat 0) := by
  simp [cstrAt]

theorem set_append_length (pre post : List Char) (x y : Char) :
    (pre ++ x :: post).set pre.length y = pre ++ y :: post := by
  induction pre with
  | nil => simp
  | cons a t ih => simp [ih]

theorem byteAt_append (done rest : List Char) (h : NulFree rest) :
    byteAt (done ++ rest) done.length ≠ Char.ofNat 0 ↔ rest ≠ [] := by
  cases rest with
  | nil => simp [byteAt]
  | cons x t =>
    have hx : x ≠ Char.ofNat 0 := h x (List.mem_cons_self _ _)
    simp only [byteAt, List.getD_append_right _ _ _ _ (le_refl _), Nat.sub_self,
      List.getD_cons_zero]
    simp [hx]

/-- The loop of `splitLines`, started at the end of `done` on the C string
`rest`, ends within `rest.length + 1` passes, records the first lines of
`rest` and changes only bytes of `rest`. -/
theorem splitLoop_spec (size : Int) : ∀ (fuel : Nat) (rest done : List Char) (ln : Nat)
    (arr : List (Nat × Nat)), NulFree rest → rest.length < fuel →
    ∃ tail cur,
      splitLoop size fuel ⟨done ++ rest, some done.length, ln, arr⟩ =
        some ⟨done ++ tail, cur, ln + passes size ln (linesOf rest).length,
          arr ++ (writesOf ln done.length (linesOf rest)).take
            (passes size ln (linesOf rest).length)⟩ ∧
      tail.length = rest.length ∧
      ((writesOf ln done.length (linesOf rest)).take
          (passes size ln (linesOf rest).length)).map (fun w => cstrAt (done ++ tail) w.2) =
        (linesOf rest).take (passes size ln (linesOf rest).length) := by
  intro fuel
  induction fuel with
  | zero => intro rest done ln arr _ h; omega
  | succ f ih =>
    intro rest done ln arr hnul hfuel
    have hcstr : cstrAt (done ++ rest) done.length = rest := by
      rw [cstrAt_append, takeWhile_nul_self rest hnul]
    rcases first_line_cases rest with hno | ⟨line, rest', hrest, hline⟩
    · -- no newline left
      have hchr := strchr_none_of_not_mem '\n' rest hno
      by_cases hempty : rest = []
      · subst hempty
        refine ⟨[], none, ?_, rfl, ?_⟩
        · simp [splitLoop, splitBody, splitCond, hcstr, hchr, linesOf, passes, writesOf]
          simp [cstrAt] at hcstr
          simp [cstrAt, strchr]
        · simp [linesOf, passes, writesOf]
      · have hlines := linesOf_no_newline rest hempty hno
        have hpos : 0 < rest.length := List.length_pos.mpr hempty
        have hp : passes size ln 1 = 1 := by simp [passes]
        refine ⟨rest, none, ?_, rfl, ?_⟩
        · simp [splitLoop, splitBody, splitCond, hcstr, hchr, hlines, hp, writesOf, hpos]
        · simp [hlines, hp, writesOf, hcstr]
    · -- a line, a newline, and more
      subst hrest
      have hchr := strchr_append '\n' line rest' hline
      have hnl : NulFree line := fun c hc => hnul c (List.mem_append_left _ hc)
      have hnr : NulFree rest' := fun c hc =>
        hnul c (List.mem_append_right _ (List.mem_cons_of_mem _ hc))
      have hlines := linesOf_line line rest' hline
      have hset : (done ++ (line ++ '\n' :: rest')).set (done.length + line.length)
          (Char.ofNat 0) = (done ++ line ++ [Char.ofNat 0]) ++ rest' := by
        have := set_append_length (done ++ line) rest' '\n' (Char.ofNat 0)
        simp only [List.length_append, List.append_assoc] at this
        simp [this]
      have hlen' : (done ++ line ++ [Char.ofNat 0]).length = done.length + line.length + 1 := by
        simp [Nat.add_assoc]
      have hseg : ∀ tail', cstrAt ((done ++ line ++ [Char.ofNat 0]) ++ tail') done.length
          = line := by
        intro tail'
        have : (done ++ line ++ [Char.ofNat 0]) ++ tail'
            = done ++ (line ++ Char.ofNat 0 :: tail') := by simp
        rw [this, cstrAt_append, takeWhile_nul_append line tail' hnl]
      have hbody : splitBody ⟨done ++ (line ++ '\n' :: rest'), some done.length, ln, arr⟩
          = ⟨(done ++ line ++ [Char.ofNat 0]) ++ rest',
              some (done ++ line ++ [Char.ofNat 0]).length, ln + 1,
              arr ++ [(ln, done.length)]⟩ := by
        simp only [splitBody, hcstr, hchr, hset, hlen', Nat.add_assoc]
      by_cases hcont : rest' ≠ [] ∧ (ln : Int) + 1 < size
      · -- the loop goes on
        have hcond : splitCond size ⟨(done ++ line ++ [Char.ofNat 0]) ++ rest',
              some (done ++ line ++ [Char.ofNat 0]).length, ln + 1,
              arr ++ [(ln, done.length)]⟩ = true := by
          simp only [splitCond, Bool.and_eq_true, decide_eq_true_eq, bne_iff_ne, ne_eq]
          refine ⟨?_, by push_cast; exact hcont.2⟩
          have := (byteAt_append (done ++ line ++ [Char.ofNat 0]) rest' hnr).mpr hcont.1
          simpa using this
        have hf : rest'.length < f := by
          simp only [List.length_append, List.length_cons] at hfuel
          omega
        obtain ⟨tail, cur, hrun, htl, hsegs⟩ :=
          ih rest' (done ++ line ++ [Char.ofNat 0]) (ln + 1) (arr ++ [(ln, done.length)]) hnr hf
        have hp : passes size ln ((linesOf rest').length + 1)
            = passes size (ln + 1) (linesOf rest').length + 1 := by
          simp only [passes]
          have h2 := hcont.2
          have e1 : max 1 (size - (ln : Int)).toNat = (size - ((ln + 1 : Nat) : Int)).toNat + 1 := by
            push_cast; omega
          have e2 : max 1 (size - ((ln + 1 : Nat) : Int)).toNat
              = (size - ((ln + 1 : Nat) : Int)).toNat := by
            push_cast; omega
          rw [e1, e2]
          omega
        refine ⟨line ++ Char.ofNat 0 :: tail, cur, ?_, ?_, ?_⟩
        · rw [splitLoop, hbody]
          simp only [hcond, if_true]
          rw [hrun, hlines]
          simp only [List.length_cons, hp, writesOf, List.take_succ_cons, hlen']
          simp [Nat.add_assoc, Nat.add_comm 1]
        · simp [htl]
        · rw [hlines]
          simp only [List.length_cons, hp, writesOf, List.take_succ_cons, List.map_cons]
          have e : done ++ (line ++ Char.ofNat 0 :: tail)
              = (done ++ line ++ [Char.ofNat 0]) ++ tail := by simp
          rw [e, hseg tail]
          rw [hlen'] at hsegs
          rw [hsegs]
      · -- the loop ends here
        have hcond : splitCond size ⟨(done ++ line ++ [Char.ofNat 0]) ++ rest',
              some (done ++ line ++ [Char.ofNat 0]).length, ln + 1,
              arr ++ [(ln, done.length)]⟩ = false := by
          rw [Bool.eq_false_iff]
          intro hc
          simp only [splitCond, Bool.and_eq_true, decide_eq_true_eq, bne_iff_ne, ne_eq] at hc
          apply hcont
          refine ⟨?_, by have := hc.2; push_cast at this; exact this⟩
          have := (byteAt_append (done ++ line ++ [Char.ofNat 0]) rest' hnr).mp
            (by simpa using hc.1)
          exact this
        have hp : passes size ln ((linesOf rest').length + 1) = 1 := by
          simp only [passes]
          by_cases hr : rest' = []
          · subst hr
            simp [linesOf]
          · have h2 : ¬ ((ln : Int) + 1 < size) := fun h => hcont ⟨hr, h⟩
            have e1 : max 1 (size - (ln : Int)).toNat = 1 := by omega
            rw [e1]
            omega
        refine ⟨line ++ Char.ofNat 0 :: rest', some (done ++ line ++ [Char.ofNat 0]).length,
          ?_, by simp, ?_⟩
        · rw [splitLoop, hbody]
          simp only [hcond, hlines, List.length_cons, hp, writesOf, List.take_succ_cons,
            List.take_zero]
          simp
        · rw [hlines]
          simp only [List.length_cons, hp, writesOf, List.take_succ_cons, List.take_zero,
            List.map_cons, List.map_nil]
          have e : done ++ (line ++ Char.ofNat 0 :: rest')
              = (done ++ line ++ [Char.ofNat 0]) ++ rest' := by simp
          rw [e, hseg rest']

theorem writesOf_length : ∀ (ls : List (List Char)) (ln off : Nat),
    (writesOf ln off ls).length = ls.length
  | [], _, _ => rfl
  | l :: ls, ln, off => by simp [writesOf, writesOf_length ls]

theorem writesOf_index : ∀ (ls : List (List Char)) (ln off : Nat),
    (writesOf ln off ls).map Prod.fst = List.range' ln ls.length
  | [], _, _ => rfl
  | l :: ls, ln, off => by simp [writesOf, writesOf_index ls, List.range'_succ]

theorem writesOf_take_index : ∀ (ls : List (List Char)) (ln off k : Nat) (w : Nat × Nat),
    w ∈ (writesOf ln off ls).take k → ln ≤ w.1 ∧ w.1 < ln + k
  | [], _, _, _, w, h => by simp [writesOf] at h
  | l :: ls, ln, off, 0, w, h => by simp at h
  | l :: ls, ln, off, k + 1, w, h => by
    simp only [writesOf, List.take_succ_cons, List.mem_cons] at h
    rcases h with h | h
    · subst h
      simp
    · have := writesOf_take_index ls (ln + 1) (off + l.length + 1) k w h
      omega

/-- What `splitLines` does on a C string `buf`: the loop ends, and the call
records the first `passes size 0 n` of the `n` lines of `buf`. -/
theorem splitLines_spec (buf : List Char) (hnul : NulFree buf) (size : Int) :
    ∃ r, splitLines (some buf) (some ()) size = some r ∧
      r.ret = (passes size 0 (linesOf buf).length : Nat) ∧
      r.linesArray = (writesOf 0 0 (linesOf buf)).take (passes size 0 (linesOf buf).length) ∧
      r.segments = (linesOf buf).take (passes size 0 (linesOf buf).length) := by
  obtain ⟨tail, cur, hrun, -, hsegs⟩ :=
    splitLoop_spec size (buf.length + 1) buf [] 0 [] hnul (Nat.lt_succ_self _)
  simp only [List.nil_append, List.length_nil, Nat.zero_add] at hrun hsegs
  have hcall : splitLines (some buf) (some ()) size
      = some ⟨((passes size 0 (linesOf buf).length : Nat) : Int), tail,
          (writesOf 0 0 (linesOf buf)).take (passes size 0 (linesOf buf).length)⟩ := by
    simp only [splitLines]
    rw [hrun]
    rfl
  refine ⟨_, hcall, rfl, rfl, ?_⟩
  simpa [SplitResult.segments] using hsegs

theorem passes_of_le (size : Int) (n : Nat) (h : (n : Int) ≤ size) : passes size 0 n = n := by
  simp only [passes]
  omega

theorem passes_of_pos (size : Int) (n : Nat) (h : 1 ≤ size) :
    ((passes size 0 n : Nat) : Int) = min size n := by
  simp only [passes]
  omega

/-- C8, against the claim: the empty segment between two consecutive newlines
is recorded, so `"a\nb\n\nc"` gives four segments and the return value 4. -/
theorem splitLines_records_empty_segment :
    (splitLines (some "a\nb\n\nc".toList) (some ()) 10).map (fun r => (r.ret, r.segments))
      = some (4, ["a".toList, "b".toList, [], "c".toList]) := by
  decide

/-- C8, amended: with a capacity of at least the number of lines, `splitLines`
records exactly the pieces of the buffer cut at every newline, in order, empty
pieces included, except an empty piece after the last newline; no recorded
segment holds a newline, and the return value is their number. -/
theorem splitLines_records_all_lines (buf : List Char) (hnul : NulFree buf) (size : Int)
    (hsize : ((linesOf buf).length : Int) ≤ size) :
    ∃ r, splitLines (some buf) (some ()) size = some r ∧
      r.segments = linesOf buf ∧ r.ret = (linesOf buf).length ∧
      ∀ s ∈ r.segments, '\n' ∉ s := by
  obtain ⟨r, hr, hret, -, hseg⟩ := splitLines_spec buf hnul size
  rw [passes_of_le size _ hsize] at hret hseg
  rw [List.take_length] at hseg
  refine ⟨r, hr, hseg, hret, ?_⟩
  rw [hseg]
  exact linesOf_no_newline_mem buf

/-- The four lines of `"a\nb\n\nc"` with capacity 4. -/
theorem splitLines_records_all_lines_witness :
    ∃ r, splitLines (some "a\nb\n\nc".toList) (some ()) 4 = some r ∧
      r.segments = linesOf "a\nb\n\nc".toList ∧ r.ret = (linesOf "a\nb\n\nc".toList).length ∧
      ∀ s ∈ r.segments, '\n' ∉ s :=
  splitLines_records_all_lines "a\nb\n\nc".toList (by decide) 4 (by decide)

/-- C9, the failing input: with capacity 0 and the buffer `"a"`, the first pass
of the `do ... while` loop stores `linesArray[0]` before `lineNumber < size`
is looked at, and the call returns 1. -/
theorem splitLines_capacity_zero_store :
    (splitLines (some "a".toList) (some ()) 0).map (fun r => (r.ret, r.linesArray))
      = some (1, [(0, 0)]) := by
  decide

/-- With a capacity of at least 1, `splitLines` stays within the destination
array: every store is at an index below `size` and the return value is at
most `size`. -/
theorem splitLines_within_capacity (buf : List Char) (hnul : NulFree buf) (size : Int)
    (hsize : 1 ≤ size) :
    ∃ r, splitLines (some buf) (some ()) size = some r ∧ 0 ≤ r.ret ∧ r.ret ≤ size ∧
      ∀ w ∈ r.linesArray, (w.1 : Int) < size := by
  obtain ⟨r, hr, hret, harr, -⟩ := splitLines_spec buf hnul size
  have hp := passes_of_pos size (linesOf buf).length hsize
  refine ⟨r, hr, by omega, by omega, ?_⟩
  intro w hw
  rw [harr] at hw
  have := writesOf_take_index _ _ _ _ w hw
  omega

/-! ### The scan pass of `repl_str` -/

example : matchOffsets "ababab".toList "ab".toList = [0, 2, 4] := by decide
example : matchOffsets "aaaaa".toList "aa".toList = [0, 2] := by decide
example : splice "aaaaa".toList "xyz".toList 2 0 [0, 2] = "xyzxyza".toList := by decide

theorem isPrefixOf_length {pat s : List Char} (h : pat.isPrefixOf s = true) :
    pat.length ≤ s.length :=
  (List.isPrefixOf_iff_prefix.mp h).length_le

theorem scanOffsets_skip (pat : List Char) : ∀ (s : List Char) (k off : Nat),
    scanOffsets pat s k off = scanOffsets pat (s.drop k) 0 (off + k)
  | [], k, off => by cases k <;> simp [scanOffsets]
  | c :: t, 0, off => by simp
  | c :: t, k + 1, off => by
    rw [scanOffsets, scanOffsets_skip pat t k (off + 1)]
    simp [Nat.add_assoc, Nat.add_comm 1 k]

theorem scanOffsets_of_strstr_none (pat : List Char) : ∀ (s : List Char) (off : Nat),
    strstr s pat = none → scanOffsets pat s 0 off = []
  | [], _, _ => rfl
  | c :: t, off, h => by
    rw [strstr] at h
    split_ifs at h with hp
    rw [scanOffsets, if_neg hp]
    apply scanOffsets_of_strstr_none pat t (off + 1)
    simpa using h

theorem scanOffsets_of_strstr_some (pat : List Char) (hpat : pat ≠ []) :
    ∀ (s : List Char) (off j : Nat), strstr s pat = some j →
      j + pat.length ≤ s.length ∧
      scanOffsets pat s 0 off
        = (off + j) :: scanOffsets pat (s.drop (j + pat.length)) 0 (off + j + pat.length)
  | [], off, j, h => by simp [strstr, hpat] at h
  | c :: t, off, j, h => by
    have hlen : 0 < pat.length := List.length_pos.mpr hpat
    rw [strstr] at h
    split_ifs at h with hp
    · simp only [Option.some.injEq] at h
      subst h
      refine ⟨by simpa using isPrefixOf_length hp, ?_⟩
      rw [scanOffsets, if_pos hp, scanOffsets_skip pat t (pat.length - 1) (off + 1)]
      have e1 : (c :: t).drop (0 + pat.length) = t.drop (pat.length - 1) := by
        obtain ⟨m, hm⟩ : ∃ m, pat.length = m + 1 := ⟨pat.length - 1, by omega⟩
        simp [hm]
      have e2 : off + 1 + (pat.length - 1) = off + 0 + pat.length := by omega
      rw [e1, e2]
      simp
    · obtain ⟨j', hj', rfl⟩ : ∃ j', strstr t pat = some j' ∧ j' + 1 = j := by
        simpa [Option.map_eq_some'] using h
      obtain ⟨hle, heq⟩ := scanOffsets_of_strstr_some pat hpat t (off + 1) j' hj'
      refine ⟨by simp only [List.length_cons]; omega, ?_⟩
      rw [scanOffsets, if_neg hp, heq]
      have e1 : (c :: t).drop (j' + 1 + pat.length) = t.drop (j' + pat.length) := by
        have : j' + 1 + pat.length = (j' + pat.length) + 1 := by omega
        rw [this, List.drop_succ_cons]
      rw [e1]
      have e2 : off + 1 + j' = off + (j' + 1) := by omega
      rw [e2]

theorem Chained.weaken (patlen n : Nat) : ∀ (ps : List Nat) (e e' : Nat), e' ≤ e →
    Chained patlen n e ps → Chained patlen n e' ps
  | [], _, _, _, _ => trivial
  | _ :: _, _, _, h, hc => ⟨le_trans h hc.1, hc.2.1, hc.2.2⟩

theorem scanOffsets_chained (pat : List Char) (hpat : pat ≠ []) :
    ∀ (s : List Char) (k off : Nat),
      Chained pat.length (off + s.length) (off + k) (scanOffsets pat s k off)
  | [], k, off => by cases k <;> simp [scanOffsets, Chained]
  | c :: t, k + 1, off => by
    rw [scanOffsets]
    have := scanOffsets_chained pat hpat t k (off + 1)
    simp only [List.length_cons]
    have e1 : off + 1 + t.length = off + (t.length + 1) := by omega
    have e2 : off + 1 + k = off + (k + 1) := by omega
    rw [e1, e2] at this
    exact this
  | c :: t, 0, off => by
    have hlen : 0 < pat.length := List.length_pos.mpr hpat
    rw [scanOffsets]
    split_ifs with hp
    · have hl := isPrefixOf_length hp
      have := scanOffsets_chained pat hpat t (pat.length - 1) (off + 1)
      have e1 : off + 1 + t.length = off + (c :: t).length := by
        simp only [List.length_cons]; omega
      have e2 : off + 1 + (pat.length - 1) = off + pat.length := by omega
      rw [e1, e2] at this
      exact ⟨by omega, by omega, this⟩
    · have := scanOffsets_chained pat hpat t 0 (off + 1)
      have e1 : off + 1 + t.length = off + (c :: t).length := by
        simp only [List.length_cons]; omega
      rw [e1] at this
      exact Chained.weaken _ _ _ _ _ (by omega) this

/-- The scan loop with a non-empty pattern and an allocator that does not fail:
from a position inside `str` it ends within `str.length - pstr + 1` passes and
appends to the cache the offsets of the matches from that position on. -/
theorem scanLoop_spec (alloc : Nat → Bool) (halloc : ∀ n, alloc n = true)
    (str pat : List Char) (hpat : pat ≠ []) :
    ∀ (fuel : Nat) (st : ScanState), st.pstr ≤ str.length → str.length - st.pstr < fuel →
      ∃ st', scanLoop alloc str pat fuel st = some (some st') ∧
        st'.pos_cache = st.pos_cache ++ scanOffsets pat (str.drop st.pstr) 0 st.pstr ∧
        st'.count = st.count + (scanOffsets pat (str.drop st.pstr) 0 st.pstr).length ∧
        st'.pstr ≤ str.length := by
  intro fuel
  induction fuel with
  | zero => intro st _ h; omega
  | succ f ih =>
    intro st hp hf
    have hlen : 0 < pat.length := List.length_pos.mpr hpat
    rw [scanLoop]
    cases hs : strstr (str.drop st.pstr) pat with
    | none =>
      refine ⟨st, rfl, ?_, ?_, hp⟩
      · simp [scanOffsets_of_strstr_none pat _ st.pstr hs]
      · simp [scanOffsets_of_strstr_none pat _ st.pstr hs]
    | some j =>
      obtain ⟨hle, heq⟩ := scanOffsets_of_strstr_some pat hpat _ st.pstr j hs
      have hdl : (str.drop st.pstr).length = str.length - st.pstr := List.length_drop _ _
      have hdrop : (str.drop st.pstr).drop (j + pat.length)
          = str.drop (st.pstr + j + pat.length) := by
        rw [List.drop_drop]
        congr 1
        omega
      rw [hdrop] at heq
      have key : ∀ (cs ci : Nat),
          ∃ st', scanLoop alloc str pat f
              ⟨st.pstr + j + pat.length, st.count + 1, st.pos_cache ++ [st.pstr + j], cs, ci⟩
              = some (some st') ∧
            st'.pos_cache = st.pos_cache ++ scanOffsets pat (str.drop st.pstr) 0 st.pstr ∧
            st'.count = st.count + (scanOffsets pat (str.drop st.pstr) 0 st.pstr).length ∧
            st'.pstr ≤ str.length := by
        intro cs ci
        obtain ⟨st', h1, h2, h3, h4⟩ :=
          ih ⟨st.pstr + j + pat.length, st.count + 1, st.pos_cache ++ [st.pstr + j], cs, ci⟩
            (by simp only; omega) (by simp only; omega)
        refine ⟨st', h1, ?_, ?_, h4⟩
        · rw [h2, heq]; simp
        · rw [h3, heq]; simp only [List.length_cons]; omega
      simp only [halloc, Bool.true_eq_false, if_false]
      split_ifs
      · exact key _ _
      · exact key _ _
      · exact key _ _

/-! ### The build pass of `repl_str` -/

theorem subSz_eq (a b : Nat) (hb : b ≤ a) (ha : a < 2 ^ 64) : subSz a b = a - b := by
  simp only [subSz]
  omega

theorem getD_of_drop (ps : List Nat) (i p : Nat) (rest : List Nat) (h : ps.drop i = p :: rest) :
    ps.getD i 0 = p ∧ ps.drop (i + 1) = rest ∧ i + rest.length + 1 = ps.length := by
  have h0 : (ps.drop i)[0]? = some p := by rw [h]; simp
  rw [List.getElem?_drop, Nat.add_zero] at h0
  refine ⟨by simp [List.getD_eq_getElem?_getD, h0], ?_, ?_⟩
  · rw [← List.drop_drop, h]
    rfl
  · have := congrArg List.length h
    simp only [List.length_drop, List.length_cons] at this
    omega

/-- No copy length wraps: in pass `i` the computed `cpylen` is the distance from
the end of match `i` to the next match, or to the end of the string. -/
theorem cpylenOf_spec (fl n e : Nat) (hn : n < 2 ^ 64) (ps : List Nat) (i p : Nat)
    (rest : List Nat) (h : ps.drop i = p :: rest) (hc : Chained fl n e (p :: rest)) :
    p + fl ≤ rest.headD n ∧ rest.headD n ≤ n ∧
      cpylenOf fl n ps.length ps i = rest.headD n - (p + fl) := by
  obtain ⟨hi, hdrop, hlen⟩ := getD_of_drop ps i p rest h
  obtain ⟨-, hpn, hrest⟩ := hc
  cases rest with
  | nil =>
    have hlast : i = ps.length - 1 := by simp only [List.length_nil] at hlen; omega
    simp only [List.headD_nil]
    refine ⟨hpn, le_refl _, ?_⟩
    simp only [cpylenOf, if_pos hlast, hi]
    rw [subSz_eq n p (by omega) hn, subSz_eq (n - p) fl (by omega) (by omega)]
    omega
  | cons p' r =>
    have hnl : i ≠ ps.length - 1 := by simp only [List.length_cons] at hlen; omega
    obtain ⟨hi', -, -⟩ := getD_of_drop ps (i + 1) p' r hdrop
    obtain ⟨h1, h2, -⟩ := hrest
    simp only [List.headD_cons]
    refine ⟨h1, by omega, ?_⟩
    simp only [cpylenOf, if_neg hnl, hi, hi']
    rw [subSz_eq p' p (by omega) (by omega), subSz_eq (p' - p) fl (by omega) (by omega)]
    omega

theorem take_append_spliceTail (str rep : List Char) (fl e : Nat) (rest : List Nat) :
    (str.drop e).take (rest.headD str.length - e) ++ spliceTail str rep fl rest
      = splice str rep fl e rest := by
  cases rest with
  | nil =>
    simp only [List.headD_nil, spliceTail, splice, List.append_nil]
    exact List.take_of_length_le (by simp)
  | cons p' r => simp [spliceTail, splice]

theorem buildLoop_spec (str rep : List Char) (fl : Nat) (hn : str.length < 2 ^ 64)
    (ps : List Nat) : ∀ (n i : Nat) (pret : List Char) (suffix : List Nat) (e : Nat),
    ps.drop i = suffix → suffix.length = n → Chained fl str.length e suffix →
    buildLoop str rep fl str.length ps.length ps n i pret
      = some (pret ++ spliceTail str rep fl suffix) := by
  intro n
  induction n with
  | zero =>
    intro i pret suffix e _ hl _
    have : suffix = [] := List.length_eq_zero.mp hl
    subst this
    simp [buildLoop, spliceTail]
  | succ m ih =>
    intro i pret suffix e hd hl hc
    obtain ⟨p, rest, rfl⟩ : ∃ p rest, suffix = p :: rest := by
      cases suffix with
      | nil => simp at hl
      | cons p rest => exact ⟨p, rest, rfl⟩
    obtain ⟨hi, hdrop, -⟩ := getD_of_drop ps i p rest hd
    obtain ⟨h1, h2, h3⟩ := cpylenOf_spec fl str.length e hn ps i p rest hd hc
    have hmem : memcpy (str.drop (p + fl)) (rest.headD str.length - (p + fl))
        = some ((str.drop (p + fl)).take (rest.headD str.length - (p + fl))) := by
      simp only [memcpy, List.length_drop]
      rw [if_pos (by omega)]
    rw [buildLoop, hi, h3, hmem]
    simp only
    rw [ih (i + 1) _ rest (p + fl) hdrop (by simpa using hl) hc.2.2,
      show spliceTail str rep fl (p :: rest) = rep ++ splice str rep fl (p + fl) rest from rfl,
      ← take_append_spliceTail str rep fl (p + fl) rest]
    simp only [List.append_assoc]

/-- Length of the spliced text: the `k` matches take `k * fl` bytes of the
string, and `k * rep.length` bytes replace them. -/
theorem splice_length (str rep : List Char) (fl : Nat) : ∀ (ps : List Nat) (e : Nat),
    Chained fl str.length e ps → e ≤ str.length →
    ps.length * fl ≤ str.length - e ∧
    (splice str rep fl e ps).length + ps.length * fl
      = (str.length - e) + ps.length * rep.length
  | [], e, _, _ => by simp [splice]
  | p :: ps, e, hc, he => by
    obtain ⟨h1, h2, h3⟩ := hc
    obtain ⟨ih1, ih2⟩ := splice_length str rep fl ps (p + fl) h3 h2
    simp only [splice, List.length_append, List.length_take, List.length_drop,
      List.length_cons, Nat.add_mul, Nat.one_mul]
    constructor
    · omega
    · have : min (p - e) (str.length - e) = p - e := by omega
      rw [this]
      omega

theorem retlenOf_spec (n tl fl k L : Nat) (hk : 0 < k) (hL : L < 2 ^ 64) (hfl : fl < 2 ^ 64)
    (htl : tl < 2 ^ 64) (hsum : L + k * fl = n + k * tl) :
    retlenOf n tl fl k = L := by
  simp only [retlenOf, if_pos hk, subSz]
  have hmod : fl % 2 ^ 64 = fl := Nat.mod_eq_of_lt hfl
  rw [hmod]
  by_cases hcmp : fl ≤ tl
  · have e1 : (tl + 2 ^ 64 - fl) % 2 ^ 64 = tl - fl := by omega
    rw [e1]
    have e2 : (tl - fl) * k + k * fl = k * tl := by
      rw [Nat.mul_comm k fl, ← Nat.add_mul, Nat.sub_add_cancel hcmp, Nat.mul_comm]
    omega
  · have e1 : (tl + 2 ^ 64 - fl) % 2 ^ 64 = tl + 2 ^ 64 - fl := by omega
    rw [e1]
    have e2 : (tl + 2 ^ 64 - fl) * k + k * fl = k * tl + 2 ^ 64 * k := by
      rw [Nat.mul_comm k fl, ← Nat.add_mul, Nat.sub_add_cancel (by omega), Nat.add_mul,
        Nat.mul_comm tl k]
    omega

/-- The build pass after a scan that found the matches `ps`: it returns the
spliced text, and `retlen` is exactly its length. -/
theorem buildPass_spec (alloc : Nat → Bool) (halloc : ∀ n, alloc n = true)
    (str pat rep : List Char) (st : ScanState) (hp : st.pstr ≤ str.length)
    (hcount : st.count = st.pos_cache.length)
    (hc : Chained pat.length str.length 0 st.pos_cache)
    (hn : str.length < 2 ^ 64)
    (hfit : (splice str rep pat.length 0 st.pos_cache).length < 2 ^ 64) :
    buildPass alloc str pat rep st = Ret.str (splice str rep pat.length 0 st.pos_cache) ∧
    retlenOf str.length rep.length pat.length st.count
      = (splice str rep pat.length 0 st.pos_cache).length := by
  have horg : st.pstr + (str.drop st.pstr).length = str.length := by
    simp only [List.length_drop]; omega
  obtain ⟨hle, hsum⟩ := splice_length str rep pat.length st.pos_cache 0 hc (Nat.zero_le _)
  simp only [Nat.sub_zero] at hle hsum
  cases hps : st.pos_cache with
  | nil =>
    have h0 : st.count = 0 := by rw [hcount, hps]; rfl
    simp [buildPass, halloc, h0, splice, retlenOf]
  | cons p0 rest =>
    rw [hps] at hc hle hsum hfit
    have hk : 0 < st.count := by rw [hcount, hps]; simp
    have hk' : st.count = rest.length + 1 := by rw [hcount, hps]; rfl
    simp only [List.length_cons] at hle hsum
    obtain ⟨-, hp0, -⟩ := id hc
    have hfl : pat.length < 2 ^ 64 := by omega
    have hLge : rep.length ≤ (splice str rep pat.length 0 (p0 :: rest)).length := by
      simp [splice]
      omega
    have hret : retlenOf str.length rep.length pat.length st.count
        = (splice str rep pat.length 0 (p0 :: rest)).length := by
      rw [hk']
      exact retlenOf_spec _ _ _ _ _ (by omega) hfit hfl (by omega) hsum
    refine ⟨?_, hret⟩
    have hloop := buildLoop_spec str rep pat.length hn (p0 :: rest) (rest.length + 1) 0
      (str.take p0) (p0 :: rest) 0 rfl rfl hc
    have hmem : memcpy str p0 = some (str.take p0) := by
      simp only [memcpy]
      rw [if_pos (by omega)]
    have hsplice : str.take p0 ++ spliceTail str rep pat.length (p0 :: rest)
        = splice str rep pat.length 0 (p0 :: rest) := by
      simp [spliceTail, splice]
    simp only [List.length_cons] at hloop
    simp only [buildPass, horg, halloc, Bool.true_eq_false, if_false, hps, List.getD_cons_zero,
      hmem, hk', Nat.add_one_ne_zero, List.length_cons]
    rw [hloop, hsplice]
    simp only [← hk', hret, if_true]

/-! ### `repl_str` as a whole -/

theorem Chained.drop (fl n : Nat) : ∀ (ps : List Nat) (e i : Nat), Chained fl n e ps →
    ∃ e', Chained fl n e' (ps.drop i)
  | [], e, i, _ => ⟨e, by simp [Chained]⟩
  | p :: ps, e, 0, h => ⟨e, h⟩
  | p :: ps, _, i + 1, h => by
    simpa using Chained.drop fl n ps (p + fl) i h.2.2

/-- In every pass of the copy loop the `size_t` value of `cpylen` is the exact
difference that the source expression denotes. -/
theorem cpylenOf_exact (fl n : Nat) (hn : n < 2 ^ 64) (ps : List Nat) (e : Nat)
    (hc : Chained fl n e ps) (i : Nat) (hi : i < ps.length) :
    ps.getD i 0 + fl ≤ (if i = ps.length - 1 then n else ps.getD (i + 1) 0) ∧
    (if i = ps.length - 1 then n else ps.getD (i + 1) 0) ≤ n ∧
    cpylenOf fl n ps.length ps i
      = (if i = ps.length - 1 then n else ps.getD (i + 1) 0) - (ps.getD i 0 + fl) := by
  obtain ⟨p, rest, hd⟩ : ∃ p rest, ps.drop i = p :: rest := by
    cases h : ps.drop i with
    | nil =>
      have := congrArg List.length h
      simp only [List.length_drop, List.length_nil] at this
      omega
    | cons p rest => exact ⟨p, rest, rfl⟩
  obtain ⟨e', hc'⟩ := Chained.drop fl n ps e i hc
  rw [hd] at hc'
  obtain ⟨h1, h2, h3⟩ := cpylenOf_spec fl n e' hn ps i p rest hd hc'
  obtain ⟨hgi, hdrop, hlen⟩ := getD_of_drop ps i p rest hd
  have hnxt : (if i = ps.length - 1 then n else ps.getD (i + 1) 0) = rest.headD n := by
    cases rest with
    | nil =>
      have : i = ps.length - 1 := by simp only [List.length_nil] at hlen; omega
      simp [this]
    | cons p' r =>
      have hne : i ≠ ps.length - 1 := by simp only [List.length_cons] at hlen; omega
      obtain ⟨hgi', -, -⟩ := getD_of_drop ps (i + 1) p' r hdrop
      rw [if_neg hne, hgi']
      rfl
  rw [hnxt, hgi]
  exact ⟨h1, h2, h3⟩

/-- The whole call, for a non-empty pattern: the scan pass ends with the
offsets of the matches in its cache and the build pass returns the spliced
text. -/
theorem repl_str_spec (alloc : Nat → Bool) (halloc : ∀ n, alloc n = true) (fuel : Nat)
    (str pat rep : List Char) (hpat : pat ≠ []) (hfuel : str.length < fuel)
    (hstr : str.length < 2 ^ 64)
    (hfit : (splice str rep pat.length 0 (matchOffsets str pat)).length < 2 ^ 64) :
    ∃ st, scanLoop alloc str pat fuel ⟨0, 0, [], 0, 16⟩ = some (some st) ∧
      st.pos_cache = matchOffsets str pat ∧ st.count = (matchOffsets str pat).length ∧
      st.pstr + (str.drop st.pstr).length = str.length ∧
      repl_str alloc fuel str pat rep
        = some (Ret.str (splice str rep pat.length 0 (matchOffsets str pat))) ∧
      retlenOf str.length rep.length pat.length st.count
        = (splice str rep pat.length 0 (matchOffsets str pat)).length := by
  obtain ⟨st, hscan, hpos, hcnt, hp⟩ :=
    scanLoop_spec alloc halloc str pat hpat fuel ⟨0, 0, [], 0, 16⟩ (Nat.zero_le _)
      (by simpa using hfuel)
  simp only [List.drop_zero, List.nil_append, Nat.zero_add] at hpos hcnt
  have hpos' : st.pos_cache = matchOffsets str pat := hpos
  have hcnt' : st.count = st.pos_cache.length := by rw [hcnt, hpos]
  have hc : Chained pat.length str.length 0 st.pos_cache := by
    rw [hpos]
    simpa using scanOffsets_chained pat hpat str 0 0
  rw [← hpos'] at hfit
  obtain ⟨hb, hr⟩ := buildPass_spec alloc halloc str pat rep st hp hcnt' hc hstr hfit
  refine ⟨st, hscan, hpos', by rw [hcnt', hpos'], ?_, ?_, ?_⟩
  · simp only [List.length_drop]; omega
  · simp only [repl_str, hscan, hb, hpos']
  · rw [hr, hpos']

/-- C1: for a non-empty pattern, an allocator that does not fail, strings that
fit the address space and enough passes of the scan loop, `repl_str` returns
`str[0..p_0) ++ to ++ str[p_0+|from|..p_1) ++ to ++ ... ++ str[p_(k-1)+|from|..end)`
where `p_0 < ... < p_(k-1)` are the matches met reading `str` from left to
right, each the first occurrence at or after the end of the one before. In
particular `repl_str("ababab", "ab", "xyz") = "xyzxyzxyz"`. -/
theorem repl_str_replaces_every_match (alloc : Nat → Bool) (halloc : ∀ n, alloc n = true)
    (fuel : Nat) (str from_ to_ : List Char) (hfrom : from_ ≠ [])
    (hfuel : str.length < fuel) (hstr : str.length < 2 ^ 64)
    (hfit : (splice str to_ from_.length 0 (matchOffsets str from_)).length < 2 ^ 64) :
    repl_str alloc fuel str from_ to_
        = some (Ret.str (splice str to_ from_.length 0 (matchOffsets str from_))) ∧
    repl_str allocOk 7 "ababab".toList "ab".toList "xyz".toList
        = some (Ret.str "xyzxyzxyz".toList) := by
  obtain ⟨st, -, -, -, -, h, -⟩ :=
    repl_str_spec alloc halloc fuel str from_ to_ hfrom hfuel hstr hfit
  exact ⟨h, by decide⟩

/-- Replacing `"-"` by `"::"` in `"a-b-c"`. -/
theorem repl_str_replaces_every_match_witness :
    repl_str allocOk 6 "a-b-c".toList "-".toList "::".toList
        = some (Ret.str (splice "a-b-c".toList "::".toList "-".toList.length 0
            (matchOffsets "a-b-c".toList "-".toList))) ∧
    repl_str allocOk 7 "ababab".toList "ab".toList "xyz".toList
        = some (Ret.str "xyzxyzxyz".toList) :=
  repl_str_replaces_every_match allocOk (fun _ => rfl) 6 "a-b-c".toList "-".toList "::".toList
    (by decide) (by decide) (by decide) (by decide)

/-! ### The empty pattern -/

theorem strstr_nil (s : List Char) : strstr s [] = some 0 := by
  cases s <;> simp [strstr]

theorem scanLoop_empty_pattern (alloc : Nat → Bool) (str : List Char) :
    ∀ (fuel : Nat) (st : ScanState),
      scanLoop alloc str [] fuel st = none ∨ scanLoop alloc str [] fuel st = some none := by
  intro fuel
  induction fuel with
  | zero => intro st; left; rfl
  | succ f ih =>
    intro st
    rw [scanLoop, strstr_nil]
    simp only
    split_ifs
    · right; rfl
    · exact ih _
    · exact ih _
    · exact ih _

theorem scanLoop_empty_pattern_allocOk (str : List Char) :
    ∀ (fuel : Nat) (st : ScanState), scanLoop allocOk str [] fuel st = none := by
  intro fuel
  induction fuel with
  | zero => intro st; rfl
  | succ f ih =>
    intro st
    rw [scanLoop, strstr_nil]
    simp only [allocOk, Bool.true_eq_false, if_false]
    split_ifs
    · exact ih _
    · exact ih _
    · exact ih _

/-- C7, against the claim: with the empty pattern and memory that never runs
out, no number of passes ends the scan loop of `repl_str("abc", "", "x")`, so
the call returns nothing at all. -/
theorem repl_str_empty_pattern_loops :
    ¬ ∃ fuel r, repl_str allocOk fuel "abc".toList [] "x".toList = some r := by
  rintro ⟨fuel, r, h⟩
  simp [repl_str, scanLoop_empty_pattern_allocOk] at h

/-- C7, amended: with the empty pattern `repl_str` never returns a string. Each
pass of the scan loop finds the pattern where it stands and does not move, so
the loop only ends when growing the position cache fails, and then the call
returns `NULL`; with an allocator that does not fail it never ends. -/
theorem repl_str_empty_pattern (alloc : Nat → Bool) (fuel : Nat) (str to_ : List Char) :
    (repl_str alloc fuel str [] to_ = none ∨ repl_str alloc fuel str [] to_ = some Ret.null) ∧
    repl_str allocOk fuel str [] to_ = none := by
  constructor
  · rcases scanLoop_empty_pattern alloc str fuel ⟨0, 0, [], 0, 16⟩ with h | h
    · left; simp [repl_str, h]
    · right; simp [repl_str, h]
  · simp [repl_str, scanLoop_empty_pattern_allocOk]

/-! ### More evaluations on small inputs -/

example : (IntervalToString 1500 64).2 = " 1s500".toList := by decide
example : (IntervalToString 500 64).2 = "500ms".toList := by decide
example : (IntervalToString 65000 64).2 = " 1m05s".toList := by decide
example : (IntervalToString 90000000 64).2 = " 1d01h".toList := by decide
example : pretty_print_bytes 64 17179869184 = some "16 GB".toList := by decide
example : pretty_print_bytes 64 1023 = some "1023 B".toList := by decide
example : pretty_print_bytes 64 18446744073709551615 = some "15 EB".toList := by decide
example : pretty_print_count 64 1234000000 = some "1234 million".toList := by decide
example : pretty_print_count 64 1234567 = some "1234 ".toList := by decide
example : pretty_print_count 64 12345 = some "12 345".toList := by decide
example : pretty_print_count 64 12005 = some "12 5".toList := by decide
example : dropEmptyLast (pieces "a\nb\n\nc\n".toList) = ["a".toList, "b".toList, [], "c".toList] := by
  decide

/-! ### The number of lines -/

/-- The number of lines of a buffer: its newlines, and one more for what
follows the last newline when that is not empty. -/
theorem linesOf_length (buf : List Char) :
    (linesOf buf).length
      = buf.count '\n' + (if buf ≠ [] ∧ buf.getLast? ≠ some '\n' then 1 else 0) := by
  induction buf with
  | nil => simp [linesOf]
  | cons c t ih =>
    rw [linesOf]
    by_cases hc : c = '\n'
    · subst hc
      simp only [if_true, List.length_cons, ih, List.count_cons_self]
      cases t with
      | nil => simp
      | cons d u => simp [List.getLast?_cons_cons]; omega
    · have hc' : ¬ ('\n' = c) := fun e => hc e.symm
      simp only [if_neg hc]
      cases t with
      | nil => simp [linesOf, List.count_cons, hc]
      | cons d u =>
        have hne : linesOf (d :: u) ≠ [] := by
          intro h
          have := (linesOf_eq_nil_iff (d :: u)).mp h
          simp at this
        obtain ⟨p, ps, hp⟩ := List.exists_cons_of_ne_nil hne
        rw [hp] at ih
        rw [hp]
        simp only [List.length_cons] at ih ⊢
        rw [ih]
        simp [List.count_cons, hc, List.getLast?_cons_cons]

theorem nulFree_append_newline (s : List Char) (h : NulFree s) : NulFree (s ++ ['\n']) := by
  intro c hc
  rcases List.mem_append.mp hc with hc | hc
  · exact h c hc
  · simp only [List.mem_singleton] at hc
    subst hc
    decide

/-! ### The buffer after `splitLines` -/

theorem strchr_getElem? (c : Char) : ∀ (s : List Char) (j : Nat),
    strchr s c = some j → s[j]? = some c
  | [], _, h => by simp [strchr] at h
  | x :: t, j, h => by
    rw [strchr] at h
    split_ifs at h with hx
    · simp only [Option.some.injEq] at h
      subst h
      simp [hx]
    · obtain ⟨j', hj', rfl⟩ : ∃ j', strchr t c = some j' ∧ j' + 1 = j := by
        simpa [Option.map_eq_some'] using h
      simpa using strchr_getElem? c t j' hj'

theorem takeWhile_getElem? {p : Char → Bool} : ∀ (s : List Char) (j : Nat) (x : Char),
    (s.takeWhile p)[j]? = some x → s[j]? = some x
  | [], _, _, h => by simp at h
  | y :: t, j, x, h => by
    rw [List.takeWhile_cons] at h
    split_ifs at h with hy
    · cases j with
      | zero => simpa using h
      | succ k =>
        simp only [List.getElem?_cons_succ] at h ⊢
        exact takeWhile_getElem? t k x h
    · simp at h

theorem cstrAt_getElem? (mem : List Char) (p j : Nat) (x : Char)
    (h : (cstrAt mem p)[j]? = some x) : mem[p + j]? = some x := by
  have := takeWhile_getElem? _ j x h
  rwa [List.getElem?_drop] at this

/-- One pass of the loop of `splitLines` changes no byte other than a newline. -/
theorem splitBody_preserves (st : SplitState) :
    (splitBody st).buffer.length = st.buffer.length ∧
    ∀ i : Nat, st.buffer[i]? ≠ some '\n' → (splitBody st).buffer[i]? = st.buffer[i]? := by
  unfold splitBody
  cases hcur : st.currentLine with
  | none => simp
  | some cur =>
    simp only
    cases hchr : strchr (cstrAt st.buffer cur) '\n' with
    | none =>
      simp only
      split_ifs <;> simp
    | some j =>
      simp only [List.length_set, true_and]
      intro i hi
      have hnl := cstrAt_getElem? st.buffer cur j '\n' (strchr_getElem? '\n' _ j hchr)
      have hne : cur + j ≠ i := by
        rintro rfl
        exact hi hnl
      rw [List.getElem?_set_ne hne]

theorem splitLoop_preserves (size : Int) : ∀ (fuel : Nat) (st st' : SplitState),
    splitLoop size fuel st = some st' →
    st'.buffer.length = st.buffer.length ∧
    ∀ i : Nat, st.buffer[i]? ≠ some '\n' → st'.buffer[i]? = st.buffer[i]? := by
  intro fuel
  induction fuel with
  | zero => intro st st' h; simp [splitLoop] at h
  | succ f ih =>
    intro st st' h
    obtain ⟨hl, hb⟩ := splitBody_preserves st
    rw [splitLoop] at h
    split_ifs at h with hc
    · obtain ⟨hl', hb'⟩ := ih _ _ h
      refine ⟨by rw [hl', hl], ?_⟩
      intro i hi
      rw [hb' i (by rw [hb i hi]; exact hi), hb i hi]
    · simp only [Option.some.injEq] at h
      subst h
      exact ⟨hl, hb⟩

theorem splitLines_preserves (buf : List Char) (size : Int) (r : SplitResult)
    (h : splitLines (some buf) (some ()) size = some r) :
    r.buffer.length = buf.length ∧
    ∀ i : Nat, buf[i]? ≠ some '\n' → r.buffer[i]? = buf[i]? := by
  simp only [splitLines, Option.map_eq_some'] at h
  obtain ⟨st, hst, rfl⟩ := h
  exact splitLoop_preserves size _ _ _ hst

/-! ### Lines and pieces -/

theorem pieces_ne_nil : ∀ s : List Char, pieces s ≠ []
  | [] => by simp [pieces]
  | c :: t => by
    rw [pieces]
    split_ifs
    · simp
    · split <;> simp

theorem dropEmptyLast_cons (p : List Char) (ps : List (List Char)) (h : ps ≠ []) :
    dropEmptyLast (p :: ps) = p :: dropEmptyLast ps := by
  obtain ⟨q, qs, rfl⟩ := List.exists_cons_of_ne_nil h
  simp only [dropEmptyLast, List.getLast?_cons_cons, List.dropLast_cons₂]
  split_ifs <;> rfl

/-- The lines of a buffer are its pieces, the last one left out when empty. -/
theorem linesOf_eq_pieces : ∀ s : List Char, linesOf s = dropEmptyLast (pieces s)
  | [] => by simp [linesOf, pieces, dropEmptyLast]
  | c :: t => by
    have ih := linesOf_eq_pieces t
    have hne := pieces_ne_nil t
    rw [linesOf, pieces]
    by_cases hc : c = '\n'
    · simp only [if_pos hc]
      rw [dropEmptyLast_cons _ _ hne, ih]
    · simp only [if_neg hc]
      obtain ⟨p, ps, hp⟩ := List.exists_cons_of_ne_nil hne
      rw [hp] at ih
      rw [hp, ih]
      simp only
      cases ps with
      | nil =>
        cases p with
        | nil => simp [dropEmptyLast]
        | cons x xs => simp [dropEmptyLast]
      | cons q qs =>
        rw [dropEmptyLast_cons p (q :: qs) (by simp),
          dropEmptyLast_cons (c :: p) (q :: qs) (by simp)]

theorem joinLines_cons (line : List Char) (ls : List (List Char)) (h : ls ≠ []) :
    joinLines (line :: ls) = line ++ '\n' :: joinLines ls := by
  obtain ⟨q, qs, rfl⟩ := List.exists_cons_of_ne_nil h
  simp [joinLines, List.intercalate, List.intersperse]

/-- Joining the lines of a buffer with newlines, and adding the newline that
the buffer ends in, gives the buffer back. -/
theorem joinLines_linesOf : ∀ (n : Nat) (s : List Char), s.length ≤ n →
    joinLines (linesOf s) ++ (if s.getLast? = some '\n' then ['\n'] else []) = s := by
  intro n
  induction n with
  | zero =>
    intro s hs
    have : s = [] := List.length_eq_zero.mp (Nat.le_zero.mp hs)
    subst this
    simp [linesOf, joinLines, List.intercalate]
  | succ m ih =>
    intro s hs
    rcases first_line_cases s with hno | ⟨line, rest', hrest, hline⟩
    · by_cases hempty : s = []
      · subst hempty
        simp [linesOf, joinLines, List.intercalate]
      · rw [linesOf_no_newline s hempty hno]
        have hlast : s.getLast? ≠ some '\n' := by
          intro h
          exact hno (List.mem_of_getLast?_eq_some h)
        simp [joinLines, List.intercalate, hlast]
    · subst hrest
      rw [linesOf_line line rest' hline]
      by_cases hr : rest' = []
      · subst hr
        simp [linesOf, joinLines, List.intercalate]
      · have hlen : rest'.length ≤ m := by
          simp only [List.length_append, List.length_cons] at hs
          omega
        have hne : linesOf rest' ≠ [] := fun h => hr ((linesOf_eq_nil_iff rest').mp h)
        have hlast : (line ++ '\n' :: rest').getLast? = rest'.getLast? := by
          obtain ⟨x, xs, rfl⟩ := List.exists_cons_of_ne_nil hr
          rw [List.getLast?_append_of_ne_nil _ (by simp), List.getLast?_cons_cons]
        rw [joinLines_cons line _ hne, hlast, List.append_assoc, List.cons_append,
          ih rest' hlen]

/-- C20: with a capacity of at least the number of lines (so of at least 1
when there is a line), `splitLines` on a C string records exactly the pieces of the original buffer
cut at every newline, in order and empty pieces included, except an empty
last piece. No recorded segment holds a newline, the buffer keeps its length
and every byte that is not a newline, and the segments joined with newlines,
plus the newline the buffer ended in, are the original buffer. -/
theorem splitLines_cuts_at_newlines (buf : List Char) (hnul : NulFree buf) (size : Int)
    (hcap : ((dropEmptyLast (pieces buf)).length : Int) ≤ size) :
    ∃ r, splitLines (some buf) (some ()) size = some r ∧
      r.segments = dropEmptyLast (pieces buf) ∧
      r.ret = (dropEmptyLast (pieces buf)).length ∧
      (∀ s ∈ r.segments, '\n' ∉ s) ∧
      r.buffer.length = buf.length ∧
      (∀ i : Nat, buf[i]? ≠ some '\n' → r.buffer[i]? = buf[i]?) ∧
      joinLines r.segments ++ (if buf.getLast? = some '\n' then ['\n'] else []) = buf := by
  rw [← linesOf_eq_pieces] at hcap ⊢
  obtain ⟨r, hr, hret, -, hseg⟩ := splitLines_spec buf hnul size
  rw [passes_of_le size _ hcap] at hret hseg
  rw [List.take_length] at hseg
  obtain ⟨hlen, hbytes⟩ := splitLines_preserves buf size r hr
  refine ⟨r, hr, hseg, hret, ?_, hlen, hbytes, ?_⟩
  · rw [hseg]
    exact linesOf_no_newline_mem buf
  · rw [hseg]
    exact joinLines_linesOf buf.length buf (le_refl _)

/-- The buffer `"\na\n\nb\n"` with capacity 4: a leading newline, an empty
line and a newline at the end. -/
theorem splitLines_cuts_at_newlines_witness :
    ∃ r, splitLines (some "\na\n\nb\n".toList) (some ()) 4 = some r ∧
      r.segments = dropEmptyLast (pieces "\na\n\nb\n".toList) ∧
      r.ret = (dropEmptyLast (pieces "\na\n\nb\n".toList)).length ∧
      (∀ s ∈ r.segments, '\n' ∉ s) ∧
      r.buffer.length = "\na\n\nb\n".toList.length ∧
      (∀ i : Nat, "\na\n\nb\n".toList[i]? ≠ some '\n' → r.buffer[i]? = "\na\n\nb\n".toList[i]?) ∧
      joinLines r.segments
        ++ (if "\na\n\nb\n".toList.getLast? = some '\n' then ['\n'] else [])
        = "\na\n\nb\n".toList :=
  splitLines_cuts_at_newlines "\na\n\nb\n".toList (by decide) 4 (by decide)

/-! ### A pattern that does not occur -/

theorem strstr_none_of_absent (pat : List Char) : ∀ s : List Char,
    (∀ pre post, s ≠ pre ++ pat ++ post) → strstr s pat = none
  | [], h => by
    have hp : pat ≠ [] := by
      rintro rfl
      exact h [] [] rfl
    simp [strstr, hp]
  | c :: t, h => by
    rw [strstr]
    have hnp : ¬ pat.isPrefixOf (c :: t) = true := by
      intro hp
      obtain ⟨post, hpost⟩ := List.isPrefixOf_iff_prefix.mp hp
      exact h [] post (by simpa using hpost.symm)
    rw [if_neg hnp]
    have ht : strstr t pat = none :=
      strstr_none_of_absent pat t (fun pre post e => h (c :: pre) post (by simp [e]))
    simp [ht]

/-- C15: when the pattern does not occur in `str` (so it is not empty) and the
one allocation of the call, of `strlen(str) + 1` bytes, succeeds, `repl_str`
returns a string equal to `str`, whatever the replacement. -/
theorem repl_str_absent_pattern (alloc : Nat → Bool) (fuel : Nat) (str from_ to_ : List Char)
    (hfuel : 0 < fuel) (hmalloc : alloc ((str.length + 1) % 2 ^ 64) = true)
    (habsent : ∀ pre post, str ≠ pre ++ from_ ++ post) :
    repl_str alloc fuel str from_ to_ = some (Ret.str str) := by
  obtain ⟨f, rfl⟩ : ∃ f, fuel = f + 1 := ⟨fuel - 1, by omega⟩
  have hs := strstr_none_of_absent from_ str habsent
  have hm : alloc ((str.length + 1) % 18446744073709551616) = true := hmalloc
  simp [repl_str, scanLoop, hs, buildPass, retlenOf, hm]

/-- The pattern `"xyz"` does not occur in `"hello"`. -/
theorem repl_str_absent_pattern_witness :
    repl_str allocOk 1 "hello".toList "xyz".toList "abc".toList
      = some (Ret.str "hello".toList) :=
  repl_str_absent_pattern allocOk 1 "hello".toList "xyz".toList "abc".toList (by decide) rfl
    (by
      intro pre post h
      have hmem : 'x' ∈ pre ++ "xyz".toList ++ post := by simp
      rw [← h] at hmem
      revert hmem
      decide)

/-! ### The position cache -/

theorem strstr_some_first (pat : List Char) : ∀ (s : List Char) (j : Nat),
    strstr s pat = some j →
      pat.isPrefixOf (s.drop j) = true ∧ ∀ q, q < j → pat.isPrefixOf (s.drop q) = false
  | [], j, h => by
    rw [strstr] at h
    split_ifs at h with hp
    simp only [Option.some.injEq] at h
    subst h
    simp [hp]
  | c :: t, j, h => by
    rw [strstr] at h
    split_ifs at h with hp
    · simp only [Option.some.injEq] at h
      subst h
      exact ⟨by simpa using hp, fun q hq => by omega⟩
    · obtain ⟨j', hj', rfl⟩ : ∃ j', strstr t pat = some j' ∧ j' + 1 = j := by
        simpa [Option.map_eq_some'] using h
      obtain ⟨h1, h2⟩ := strstr_some_first pat t j' hj'
      refine ⟨by simpa using h1, ?_⟩
      intro q hq
      cases q with
      | zero => simpa using Bool.eq_false_iff.mpr hp
      | succ k => simpa using h2 k (by omega)

theorem strstr_none_nowhere (pat : List Char) : ∀ (s : List Char),
    strstr s pat = none → ∀ q, pat.isPrefixOf (s.drop q) = false
  | [], h, q => by
    rw [strstr] at h
    split_ifs at h with hp
    cases pat with
    | nil => exact absurd rfl hp
    | cons x xs => simp [List.isPrefixOf]
  | c :: t, h, q => by
    rw [strstr] at h
    split_ifs at h with hp
    have ht : strstr t pat = none := by simpa using h
    cases q with
    | zero => simpa using Bool.eq_false_iff.mpr hp
    | succ k => simpa using strstr_none_nowhere pat t ht k

theorem occursAt_iff (str pat : List Char) (hpat : pat ≠ []) (q : Nat) :
    OccursAt str pat q ↔ pat.isPrefixOf (str.drop q) = true := by
  rw [List.isPrefixOf_iff_prefix, List.prefix_iff_eq_take]
  constructor
  · rintro ⟨-, h⟩
    exact h.symm
  · intro h
    refine ⟨?_, h.symm⟩
    have hl := congrArg List.length h
    simp only [List.length_take, List.length_drop] at hl
    have : 0 < pat.length := List.length_pos.mpr hpat
    omega

theorem scanLoop_succ (alloc : Nat → Bool) (str pat : List Char) (fuel : Nat) (st : ScanState) :
    scanLoop alloc str pat (fuel + 1) st =
      match scanPass alloc str pat st with
      | ScanPass.exit => some (some st)
      | ScanPass.fail => some none
      | ScanPass.next st' => scanLoop alloc str pat fuel st' := by
  rw [scanLoop]
  unfold scanPass
  cases strstr (str.drop st.pstr) pat with
  | none => rfl
  | some j =>
    simp only
    split_ifs <;> rfl

/-- What a pass that goes on does to the variables. -/
theorem scanPass_next (alloc : Nat → Bool) (str pat : List Char) (st st' : ScanState)
    (h : scanPass alloc str pat st = ScanPass.next st') :
    ∃ j, strstr (str.drop st.pstr) pat = some j ∧ st'.pstr = st.pstr + j + pat.length ∧
      st'.count = st.count + 1 ∧ st'.pos_cache = st.pos_cache ++ [st.pstr + j] := by
  unfold scanPass at h
  cases hs : strstr (str.drop st.pstr) pat with
  | none => simp [hs] at h
  | some j =>
    refine ⟨j, rfl, ?_⟩
    simp only [hs] at h
    split_ifs at h
    all_goals
      simp only [ScanPass.next.injEq] at h
      subst h
      exact ⟨rfl, rfl, rfl⟩

theorem scanPass_exit (alloc : Nat → Bool) (str pat : List Char) (st : ScanState)
    (h : scanPass alloc str pat st = ScanPass.exit) :
    strstr (str.drop st.pstr) pat = none := by
  unfold scanPass at h
  cases hs : strstr (str.drop st.pstr) pat with
  | none => rfl
  | some j =>
    simp only [hs] at h
    split_ifs at h

theorem scanInv_init (str pat : List Char) (hpat : pat ≠ []) :
    ScanInv str pat ⟨0, 0, [], 0, 16⟩ := by
  have hl : 0 < pat.length := List.length_pos.mpr hpat
  refine ⟨rfl, Nat.zero_le _, rfl, ?_, List.Pairwise.nil, List.Pairwise.nil, ?_, ?_⟩
  · intro p hp; simp at hp
  · intro p hp; simp at hp
  · intro q _ hq
    simp only at hq
    omega

/-- An occurrence that ends after `pstr` and starts before it overlaps the last
match, which ends at `pstr`. -/
theorem overlaps_last (pat : List Char) (ps : List Nat) (pstr q : Nat)
    (hend : pstr = (match ps.getLast? with
      | none => 0
      | some p => p + pat.length))
    (h1 : q < pstr) (h2 : pstr < q + pat.length) :
    ∃ p ∈ ps, q < p + pat.length ∧ p < q + pat.length := by
  cases hl : ps.getLast? with
  | none =>
    rw [hl] at hend
    simp only at hend
    omega
  | some p =>
    rw [hl] at hend
    simp only at hend
    exact ⟨p, List.mem_of_getLast?_eq_some hl, by omega, by omega⟩

theorem scanInv_step (alloc : Nat → Bool) (str pat : List Char) (hpat : pat ≠ [])
    (st st' : ScanState) (hinv : ScanInv str pat st)
    (h : scanPass alloc str pat st = ScanPass.next st') : ScanInv str pat st' := by
  have hl : 0 < pat.length := List.length_pos.mpr hpat
  obtain ⟨j, hs, hp', hc', hpos'⟩ := scanPass_next alloc str pat st st' h
  obtain ⟨hcount, hpstr, hend, hocc, hpw1, hpw2, hle, hgap⟩ := hinv
  obtain ⟨hfirst, hmin⟩ := strstr_some_first pat _ j hs
  obtain ⟨hjl, -⟩ := scanOffsets_of_strstr_some pat hpat _ 0 j hs
  rw [List.drop_drop] at hfirst
  have hdl : (str.drop st.pstr).length = str.length - st.pstr := List.length_drop _ _
  have hnew : OccursAt str pat (st.pstr + j) := (occursAt_iff str pat hpat _).mpr hfirst
  refine ⟨by rw [hc', hpos', hcount]; simp, by omega, ?_, ?_, ?_, ?_, ?_, ?_⟩
  · rw [hpos', hp']
    simp
  · intro p hp
    rw [hpos'] at hp
    rcases List.mem_append.mp hp with hp | hp
    · exact hocc p hp
    · simp only [List.mem_singleton] at hp
      subst hp
      exact hnew
  · rw [hpos', List.pairwise_append]
    refine ⟨hpw1, List.pairwise_singleton _ _, ?_⟩
    intro a ha b hb
    simp only [List.mem_singleton] at hb
    subst hb
    have := hle a ha
    omega
  · rw [hpos', List.pairwise_append]
    refine ⟨hpw2, List.pairwise_singleton _ _, ?_⟩
    intro a ha b hb
    simp only [List.mem_singleton] at hb
    subst hb
    have := hle a ha
    omega
  · intro p hp
    rw [hpos'] at hp
    rcases List.mem_append.mp hp with hp | hp
    · have := hle p hp
      omega
    · simp only [List.mem_singleton] at hp
      subst hp
      omega
  · intro q hq hqe
    rw [hpos']
    by_cases hold : q + pat.length ≤ st.pstr
    · obtain ⟨p, hp, h1, h2⟩ := hgap q hq hold
      exact ⟨p, List.mem_append_left _ hp, h1, h2⟩
    · by_cases hqp : st.pstr ≤ q
      · by_cases heq : q = st.pstr + j
        · exact ⟨st.pstr + j, by simp, by omega, by omega⟩
        · exfalso
          have hlt : q - st.pstr < j := by omega
          have := hmin (q - st.pstr) hlt
          rw [List.drop_drop] at this
          have hq' := (occursAt_iff str pat hpat q).mp hq
          have e : st.pstr + (q - st.pstr) = q := by omega
          rw [e, hq'] at this
          exact Bool.noConfusion this
      · obtain ⟨p, hp, h1, h2⟩ :=
          overlaps_last pat st.pos_cache st.pstr q hend (by omega) (by omega)
        exact ⟨p, List.mem_append_left _ hp, h1, h2⟩

theorem scanLoop_inv (alloc : Nat → Bool) (str pat : List Char) (hpat : pat ≠ []) :
    ∀ (fuel : Nat) (st st' : ScanState), ScanInv str pat st →
      scanLoop alloc str pat fuel st = some (some st') →
      ScanInv str pat st' ∧ strstr (str.drop st'.pstr) pat = none := by
  intro fuel
  induction fuel with
  | zero => intro st st' _ h; simp [scanLoop] at h
  | succ f ih =>
    intro st st' hinv h
    rw [scanLoop_succ] at h
    cases hpass : scanPass alloc str pat st with
    | exit =>
      rw [hpass] at h
      simp only [Option.some.injEq] at h
      subst h
      exact ⟨hinv, scanPass_exit alloc str pat st hpass⟩
    | fail =>
      rw [hpass] at h
      simp at h
    | next st2 =>
      rw [hpass] at h
      exact ih st2 st' (scanInv_step alloc str pat hpat st st2 hinv hpass) h

/-- When the loop has ended, `CacheInv` holds for the whole string. -/
theorem cacheInv_final (str pat : List Char) (hpat : pat ≠ []) (st : ScanState)
    (hinv : ScanInv str pat st) (hnone : strstr (str.drop st.pstr) pat = none) :
    CacheInv str pat st.pos_cache str.length := by
  obtain ⟨-, hpstr, hend, hocc, hpw1, hpw2, hle, hgap⟩ := hinv
  refine ⟨hocc, hpw1, hpw2, fun p hp => le_trans (hle p hp) hpstr, ?_⟩
  intro q hq _
  by_cases hold : q + pat.length ≤ st.pstr
  · exact hgap q hq hold
  · by_cases hqp : st.pstr ≤ q
    · exfalso
      have := strstr_none_nowhere pat _ hnone (q - st.pstr)
      rw [List.drop_drop] at this
      have hq' := (occursAt_iff str pat hpat q).mp hq
      have e : st.pstr + (q - st.pstr) = q := by omega
      rw [e, hq'] at this
      exact Bool.noConfusion this
    · exact overlaps_last pat st.pos_cache st.pstr q hend (by omega) (by omega)

/-- C16: for a non-empty pattern, the scan loop of `repl_str` is the repetition
of `scanPass`; the invariant `ScanInv` holds before the first pass and after
every pass that goes on; when the loop has ended, the `count` cache entries
are starts of occurrences of the pattern inside the string, each at or after
the end of the matches before it (no overlap, strictly increasing), and every
occurrence of the pattern overlaps a recorded match, so that none lies wholly
inside an unmatched gap; and the loop does end when memory does not run out. -/
theorem scan_cache_invariant (alloc : Nat → Bool) (str from_ : List Char)
    (hfrom : from_ ≠ []) :
    (∀ fuel st, scanLoop alloc str from_ (fuel + 1) st =
      match scanPass alloc str from_ st with
      | ScanPass.exit => some (some st)
      | ScanPass.fail => some none
      | ScanPass.next st' => scanLoop alloc str from_ fuel st') ∧
    ScanInv str from_ ⟨0, 0, [], 0, 16⟩ ∧
    (∀ st st', ScanInv str from_ st → scanPass alloc str from_ st = ScanPass.next st' →
      ScanInv str from_ st') ∧
    (∀ fuel st', scanLoop alloc str from_ fuel ⟨0, 0, [], 0, 16⟩ = some (some st') →
      st'.count = st'.pos_cache.length ∧ CacheInv str from_ st'.pos_cache str.length) ∧
    ((∀ n, alloc n = true) → ∀ fuel, str.length < fuel →
      ∃ st', scanLoop alloc str from_ fuel ⟨0, 0, [], 0, 16⟩ = some (some st')) := by
  refine ⟨scanLoop_succ alloc str from_, scanInv_init str from_ hfrom,
    fun st st' => scanInv_step alloc str from_ hfrom st st', ?_, ?_⟩
  · intro fuel st' h
    obtain ⟨hinv, hnone⟩ :=
      scanLoop_inv alloc str from_ hfrom fuel _ st' (scanInv_init str from_ hfrom) h
    exact ⟨hinv.1, cacheInv_final str from_ hfrom st' hinv hnone⟩
  · intro halloc fuel hfuel
    obtain ⟨st', h, -⟩ := scanLoop_spec alloc halloc str from_ hfrom fuel ⟨0, 0, [], 0, 16⟩
      (Nat.zero_le _) (by simpa using hfuel)
    exact ⟨st', h⟩

/-- The scan of `"ababab"` for `"ab"`. -/
theorem scan_cache_invariant_witness :
    (∀ fuel st, scanLoop allocOk "ababab".toList "ab".toList (fuel + 1) st =
      match scanPass allocOk "ababab".toList "ab".toList st with
      | ScanPass.exit => some (some st)
      | ScanPass.fail => some none
      | ScanPass.next st' => scanLoop allocOk "ababab".toList "ab".toList fuel st') ∧
    ScanInv "ababab".toList "ab".toList ⟨0, 0, [], 0, 16⟩ ∧
    (∀ st st', ScanInv "ababab".toList "ab".toList st →
      scanPass allocOk "ababab".toList "ab".toList st = ScanPass.next st' →
      ScanInv "ababab".toList "ab".toList st') ∧
    (∀ fuel st', scanLoop allocOk "ababab".toList "ab".toList fuel ⟨0, 0, [], 0, 16⟩
        = some (some st') →
      st'.count = st'.pos_cache.length ∧
        CacheInv "ababab".toList "ab".toList st'.pos_cache "ababab".toList.length) ∧
    ((∀ n, allocOk n = true) → ∀ fuel, "ababab".toList.length < fuel →
      ∃ st', scanLoop allocOk "ababab".toList "ab".toList fuel ⟨0, 0, [], 0, 16⟩
        = some (some st')) :=
  scan_cache_invariant allocOk "ababab".toList "ab".toList (by decide)

/-! ### Exact floating point values -/

theorem Dbl.ge_ofNat (n d limit : Nat) :
    Dbl.ge ⟨(n : Int), d⟩ (Dbl.ofInt (limit : Int)) = decide (limit * d ≤ n) := by
  simp only [Dbl.ge, Dbl.lt, Dbl.ofInt, Nat.cast_one, mul_one]
  by_cases h : limit * d ≤ n
  · have h' : (limit : Int) * (d : Int) ≤ (n : Int) := by exact_mod_cast h
    simp [h, h']
  · have h' : (n : Int) < (limit : Int) * (d : Int) := by exact_mod_cast not_le.mp h
    simp [h, h']

theorem Dbl.div_ofNat (n : Int) (d divisor : Nat) (h : 0 < divisor) :
    Dbl.div ⟨n, d⟩ (Dbl.ofInt (divisor : Int)) = ⟨n, d * divisor⟩ := by
  simp only [Dbl.div, Dbl.ofInt, Int.natAbs_ofNat, Int.sign_natCast_of_ne_zero (Nat.pos_iff_ne_zero.mp h)]
  simp

theorem Dbl.trunc_ofNat (n d : Nat) : Dbl.trunc ⟨(n : Int), d⟩ = ((n / d : Nat) : Int) := by
  simp only [Dbl.trunc]
  rw [Int.tdiv_eq_ediv (by positivity) (by positivity)]
  norm_cast

/-! ### The scaling loops -/

/-- The scaling loop on a natural number `n` that falls below the limit within
six divisions: it ends at the least `k` with `n / divisor ^ k` below the limit,
with `k ≤ 6`, because of the test `count >= limit`. -/
theorem scaleLoop_spec (limit divisor n : Nat) (hdiv : 0 < divisor)
    (hsix : n / divisor ^ 6 < limit) :
    ∀ (fuel s : Nat), s ≤ 6 → 7 ≤ fuel + s → (∀ j, j < s → limit ≤ n / divisor ^ j) →
      ∃ k, s ≤ k ∧ k ≤ 6 ∧
        scaleLoop limit divisor fuel (s, ⟨(n : Int), divisor ^ s⟩)
          = some (k, ⟨(n : Int), divisor ^ k⟩) ∧
        n / divisor ^ k < limit ∧ ∀ j, j < k → limit ≤ n / divisor ^ j := by
  intro fuel
  induction fuel with
  | zero => intro s h1 h2; omega
  | succ f ih =>
    intro s hs hf hbelow
    have hpow : 0 < divisor ^ s := pow_pos hdiv s
    rw [scaleLoop, Dbl.ge_ofNat]
    by_cases hge : limit * divisor ^ s ≤ n
    · have hge' : limit ≤ n / divisor ^ s := (Nat.le_div_iff_mul_le hpow).mpr hge
      have hs5 : s ≠ 6 := by
        rintro rfl
        omega
      have hlt : s < 7 := by omega
      simp only [hge, hlt, decide_True, Bool.and_self, if_true]
      rw [Dbl.div_ofNat _ _ _ hdiv, ← pow_succ]
      obtain ⟨k, hk1, hk2, hrun, hk3, hk4⟩ := ih (s + 1) (by omega) (by omega) (by
        intro j hj
        by_cases hjs : j = s
        · subst hjs; exact hge'
        · exact hbelow j (by omega))
      exact ⟨k, by omega, hk2, hrun, hk3, hk4⟩
    · have hlt' : n / divisor ^ s < limit := by
        rw [Nat.div_lt_iff_lt_mul hpow]
        omega
      simp only [hge, decide_False, Bool.false_and, Bool.false_eq_true, if_false]
      exact ⟨s, le_refl _, hs, rfl, hlt', hbelow⟩

theorem scaleLoop_bytes (n : Nat) (hn : n < 2 ^ 64) :
    ∃ k, k ≤ 6 ∧ scaleLoop 10240 1024 8 (0, Dbl.ofInt (n : Int))
        = some (k, ⟨(n : Int), 1024 ^ k⟩) ∧
      n / 1024 ^ k < 10240 ∧ ∀ j, j < k → 10240 ≤ n / 1024 ^ j := by
  have hsix : n / 1024 ^ 6 < 10240 := by
    norm_num
    omega
  obtain ⟨k, -, hk, hrun, h1, h2⟩ :=
    scaleLoop_spec 10240 1024 n (by decide) hsix 8 0 (by omega) (by omega) (by intro j hj; omega)
  exact ⟨k, hk, by simpa [Dbl.ofInt] using hrun, h1, h2⟩

theorem scaleLoop_count (n : Nat) (hn : n < 2 ^ 64) :
    ∃ k, k ≤ 6 ∧ scaleLoop 10000 1000 8 (0, Dbl.ofInt (n : Int))
        = some (k, ⟨(n : Int), 1000 ^ k⟩) ∧
      n / 1000 ^ k < 10000 ∧ ∀ j, j < k → 10000 ≤ n / 1000 ^ j := by
  have hsix : n / 1000 ^ 6 < 10000 := by
    norm_num
    omega
  obtain ⟨k, -, hk, hrun, h1, h2⟩ :=
    scaleLoop_spec 10000 1000 n (by decide) hsix 8 0 (by omega) (by omega) (by intro j hj; omega)
  exact ⟨k, hk, by simpa [Dbl.ofInt] using hrun, h1, h2⟩

theorem Dbl.lt_ofNat (n d limit : Nat) (h : n / d < limit) (hd : 0 < d) :
    Dbl.lt ⟨(n : Int), d⟩ (Dbl.ofInt (limit : Int)) = true := by
  have hge := Dbl.ge_ofNat n d limit
  have : ¬ limit * d ≤ n := by
    rw [Nat.div_lt_iff_lt_mul hd] at h
    omega
  simp only [Dbl.ge, this, decide_False, Bool.not_eq_false'] at hge
  exact hge

/-- C19: for every 64-bit unsigned input the scaling loops of
`pretty_print_bytes` and of `pretty_print_count` end with `sIndex ≤ 6` and
because `count >= limit` is false, never because of `sIndex < 7`; the entry
`suffixes[sIndex]` exists and the value cast to `int` is below 10240, or below
10000. -/
theorem scaling_loops_stay_in_table (n : Nat) (hn : n < 2 ^ 64) :
    (∃ sIndex count, scaleLoop 10240 1024 8 (0, Dbl.ofInt (n : Int)) = some (sIndex, count) ∧
      sIndex ≤ 6 ∧ Dbl.ge count (Dbl.ofInt 10240) = false ∧
      (byteSuffixes.get? sIndex).isSome = true ∧
      0 ≤ Dbl.trunc count ∧ Dbl.trunc count < 10240) ∧
    (∃ sIndex count, scaleLoop 10000 1000 8 (0, Dbl.ofInt (n : Int)) = some (sIndex, count) ∧
      sIndex ≤ 6 ∧ Dbl.ge count (Dbl.ofInt 10000) = false ∧
      (countSuffixes.get? sIndex).isSome = true ∧
      0 ≤ Dbl.trunc count ∧ Dbl.trunc count < 10000) := by
  constructor
  · obtain ⟨k, hk, hrun, hlt, -⟩ := scaleLoop_bytes n hn
    have hpow : 0 < 1024 ^ k := pow_pos (by decide) k
    refine ⟨k, _, hrun, hk, ?_, ?_, ?_, ?_⟩
    · have := Dbl.lt_ofNat n (1024 ^ k) 10240 hlt hpow
      simp only [Dbl.ge, Bool.not_eq_false']
      exact this
    · interval_cases k <;> rfl
    · rw [Dbl.trunc_ofNat]; positivity
    · rw [Dbl.trunc_ofNat]; exact_mod_cast hlt
  · obtain ⟨k, hk, hrun, hlt, -⟩ := scaleLoop_count n hn
    have hpow : 0 < 1000 ^ k := pow_pos (by decide) k
    refine ⟨k, _, hrun, hk, ?_, ?_, ?_, ?_⟩
    · have := Dbl.lt_ofNat n (1000 ^ k) 10000 hlt hpow
      simp only [Dbl.ge, Bool.not_eq_false']
      exact this
    · interval_cases k <;> rfl
    · rw [Dbl.trunc_ofNat]; positivity
    · rw [Dbl.trunc_ofNat]; exact_mod_cast hlt

/-- The greatest 64-bit value: six divisions, `15 EB` and `18 quintillion`. -/
theorem scaling_loops_stay_in_table_witness :
    (∃ sIndex count, scaleLoop 10240 1024 8 (0, Dbl.ofInt ((18446744073709551615 : Nat) : Int))
        = some (sIndex, count) ∧
      sIndex ≤ 6 ∧ Dbl.ge count (Dbl.ofInt 10240) = false ∧
      (byteSuffixes.get? sIndex).isSome = true ∧
      0 ≤ Dbl.trunc count ∧ Dbl.trunc count < 10240) ∧
    (∃ sIndex count, scaleLoop 10000 1000 8 (0, Dbl.ofInt ((18446744073709551615 : Nat) : Int))
        = some (sIndex, count) ∧
      sIndex ≤ 6 ∧ Dbl.ge count (Dbl.ofInt 10000) = false ∧
      (countSuffixes.get? sIndex).isSome = true ∧
      0 ≤ Dbl.trunc count ∧ Dbl.trunc count < 10000) :=
  scaling_loops_stay_in_table 18446744073709551615 (by decide)

/-! ### `pretty_print_bytes` and `pretty_print_count` -/

theorem decimal_natCast (n : Nat) : decimal (n : Int) = natDecimal n := by
  have : ¬ ((n : Int) < 0) := by omega
  simp [decimal, this]

theorem sformat_of_lt (size : Nat) (text : List Char) (h : text.length < size) :
    sformat size text = text :=
  List.take_of_length_le (by omega)

theorem toLongLong_of_lt (n : Nat) (h : n < 2 ^ 63) : toLongLong n = (n : Int) := by
  unfold toLongLong
  rw [if_pos (by omega)]
  omega

theorem seconds_eq (ms : Nat) :
    Dbl.div (Dbl.ofInt (ms : Int)) (Dbl.ofInt 1000) = ⟨(ms : Int), 1000⟩ := by
  have : Int.sign 1000 = 1 := rfl
  simp [Dbl.div, Dbl.ofInt, this]

theorem tdiv_natCast (a : Int) (b n : Nat) (ha : 0 ≤ a) (h : a / (b : Int) = (n : Int)) :
    a.tdiv (b : Int) = (n : Int) := by
  rw [Int.tdiv_eq_ediv ha (by positivity), h]

/-- The text of `IntervalToString` in integer arithmetic: the branch is chosen
by the thresholds on `millisecs`, and the numbers rendered are quotients and
remainders of `millisecs`. -/
theorem IntervalText_eq (ms : Nat) :
    IntervalText ms =
      if ms < 1000 then fmtSpace 3 (ms : Nat) ++ "ms".toList
      else if ms < 10000 then
        fmtSpace 2 (ms / 1000 : Nat) ++ "s".toList ++ fmtZero 3 (ms % 1000 : Nat)
      else if ms < 60000 then fmtSpace 2 (ms / 1000 : Nat) ++ "s".toList
      else if ms < 3600000 then
        fmtSpace 2 (ms / 60000 : Nat) ++ "m".toList ++ fmtZero 2 (ms / 1000 % 60 : Nat)
          ++ "s".toList
      else if ms < 86400000 then
        fmtSpace 2 (ms / 3600000 : Nat) ++ "h".toList ++ fmtZero 2 (ms / 60000 % 60 : Nat)
          ++ "m".toList
      else
        fmtSpace 2 (ms / 86400000 : Nat) ++ "d".toList ++ fmtZero 2 (ms / 3600000 % 24 : Nat)
          ++ "h".toList := by
  have s1 : Int.sign 60 = 1 := rfl
  have s2 : Int.sign (60 * 60) = 1 := rfl
  have s3 : Int.sign (24 * 60 * 60) = 1 := rfl
  have e1 : (ms : Int).tdiv 1000 = ((ms / 1000 : Nat) : Int) :=
    tdiv_natCast _ 1000 _ (by positivity) (by omega)
  have e2 : (ms : Int).tdiv 60000 = ((ms / 60000 : Nat) : Int) :=
    tdiv_natCast _ 60000 _ (by positivity) (by omega)
  have e3 : (ms : Int).tdiv 3600000 = ((ms / 3600000 : Nat) : Int) :=
    tdiv_natCast _ 3600000 _ (by positivity) (by omega)
  have e4 : (ms : Int).tdiv 86400000 = ((ms / 86400000 : Nat) : Int) :=
    tdiv_natCast _ 86400000 _ (by positivity) (by omega)
  have e5 : ((ms : Int) - ((ms / 60000 : Nat) : Int) * 60 * 1000).tdiv 1000
      = ((ms / 1000 % 60 : Nat) : Int) :=
    tdiv_natCast _ 1000 _ (by omega) (by omega)
  have e6 : ((ms : Int) - ((ms / 3600000 : Nat) : Int) * 60 * 60 * 1000).tdiv 60000
      = ((ms / 60000 % 60 : Nat) : Int) :=
    tdiv_natCast _ 60000 _ (by omega) (by omega)
  have e7 : ((ms : Int) - ((ms / 86400000 : Nat) : Int) * 24 * 60 * 60 * 1000).tdiv 3600000
      = ((ms / 3600000 % 24 : Nat) : Int) :=
    tdiv_natCast _ 3600000 _ (by omega) (by omega)
  have e8 : toLongLong (((ms : Int) - 1000 * ((ms / 1000 : Nat) : Int))
      % 18446744073709551616).toNat = ((ms % 1000 : Nat) : Int) := by
    have : (((ms : Int) - 1000 * ((ms / 1000 : Nat) : Int)) % 18446744073709551616).toNat
        = ms % 1000 := by omega
    rw [this, toLongLong_of_lt _ (by omega)]
  unfold IntervalText
  simp only [seconds_eq]
  simp only [Dbl.div, Dbl.mul, Dbl.sub, Dbl.lt, Dbl.ofInt, Dbl.trunc, s1, s2, s3]
  norm_num
  simp only [e1, e2, e3, e4, e5, e6, e7, e8]
  split_ifs with h1
  · rw [toLongLong_of_lt ms (by omega)]
  all_goals rfl

/-- C17: with the floating point arithmetic read as exact, `IntervalToString`
returns true for every input, a buffer longer than the text receives the whole
text, and the text is chosen by the thresholds 1000, 10000, 60000, 3600000 and
86400000 on `millisecs` and renders, in that order: `ms`; `ms / 1000` and
`ms % 1000` on 3 digits; `ms / 1000`; `ms / 60000` and `ms / 1000 % 60` on 2
digits; `ms / 3600000` and `ms / 60000 % 60` on 2 digits; `ms / 86400000` and
`ms / 3600000 % 24` on 2 digits. The second numbers are below 1000, 60, 60 and
24. -/
theorem IntervalToString_fields (ms size : Nat) :
    (IntervalToString ms size).1 = true ∧
    ((IntervalText ms).length < size → (IntervalToString ms size).2 = IntervalText ms) ∧
    IntervalText ms =
      (if ms < 1000 then fmtSpace 3 (ms : Nat) ++ "ms".toList
      else if ms < 10000 then
        fmtSpace 2 (ms / 1000 : Nat) ++ "s".toList ++ fmtZero 3 (ms % 1000 : Nat)
      else if ms < 60000 then fmtSpace 2 (ms / 1000 : Nat) ++ "s".toList
      else if ms < 3600000 then
        fmtSpace 2 (ms / 60000 : Nat) ++ "m".toList ++ fmtZero 2 (ms / 1000 % 60 : Nat)
          ++ "s".toList
      else if ms < 86400000 then
        fmtSpace 2 (ms / 3600000 : Nat) ++ "h".toList ++ fmtZero 2 (ms / 60000 % 60 : Nat)
          ++ "m".toList
      else
        fmtSpace 2 (ms / 86400000 : Nat) ++ "d".toList ++ fmtZero 2 (ms / 3600000 % 24 : Nat)
          ++ "h".toList) ∧
    ms % 1000 < 1000 ∧ ms / 1000 % 60 < 60 ∧ ms / 60000 % 60 < 60 ∧ ms / 3600000 % 24 < 24 :=
  ⟨rfl, fun h => sformat_of_lt size _ h, IntervalText_eq ms,
    Nat.mod_lt _ (by decide), Nat.mod_lt _ (by decide), Nat.mod_lt _ (by decide),
    Nat.mod_lt _ (by decide)⟩

theorem span_isspace (ws : List Char) (x : Char) (t : List Char)
    (hws : ∀ c ∈ ws, isspace c = true) (hx : isspace x = false) :
    (ws ++ x :: t).takeWhile isspace = ws ∧ (ws ++ x :: t).dropWhile isspace = x :: t := by
  have h1 := takeWhile_append_stop x t hx ws hws
  refine ⟨h1, ?_⟩
  have h2 := List.takeWhile_append_dropWhile isspace (ws ++ x :: t)
  rw [h1] at h2
  exact List.append_cancel_left h2

/-- The subject sequence of a whole numeral is its digits, with nothing left
for `endptr` to point to. -/
theorem subject_of_parts (ws sign ds : List Char) (hws : ∀ c ∈ ws, isspace c = true)
    (hsign : sign = [] ∨ sign = ['-'] ∨ sign = ['+']) (hne : ds ≠ [])
    (hd : ∀ c ∈ ds, isdigit c = true) :
    (subject (ws ++ sign ++ ds)).2.2 = (ds, []) := by
  have ht := takeWhile_eq_self_of_all (p := isdigit) ds hd
  rcases hsign with rfl | rfl | rfl
  · obtain ⟨c, t, rfl⟩ := List.exists_cons_of_ne_nil hne
    have hc := hd c (List.mem_cons_self _ _)
    have hsp := span_isspace ws c t hws (isspace_eq_false_of_isdigit c hc)
    have h1 := ne_minus_of_isdigit c hc
    have h2 := ne_plus_of_isdigit c hc
    simp only [List.append_nil, subject, hsp.1, hsp.2, List.head?_cons, Option.some.injEq, h1, h2,
      or_self, if_false, List.drop_zero, ht.1, ht.2]
  · have hsp := span_isspace ws '-' ds hws (by decide)
    simp only [List.append_assoc, List.singleton_append, subject, hsp.1, hsp.2, List.head?_cons,
      true_or, if_true, List.drop_succ_cons, List.drop_zero, ht.1, ht.2]
  · have hsp := span_isspace ws '+' ds hws (by decide)
    simp only [List.append_assoc, List.singleton_append, subject, hsp.1, hsp.2, List.head?_cons,
      or_true, if_true, List.drop_succ_cons, List.drop_zero, ht.1, ht.2]

theorem wholeNumeral_subject (s : List Char) (h : WholeNumeral s) :
    (subject s).2.2.1 ≠ [] ∧ (subject s).2.2.2 = [] := by
  obtain ⟨ws, sign, ds, rfl, hws, hsign, hne, hd⟩ := h
  rw [subject_of_parts ws sign ds hws hsign hne hd]
  exact ⟨hne, rfl⟩

/-- Every input is white space, then an optional sign, then the digits of the
subject sequence, then what `endptr` points to. -/
theorem subject_form (s : List Char) :
    ∃ ws sign, s = ws ++ sign ++ (subject s).2.2.1 ++ (subject s).2.2.2 ∧
      (∀ c ∈ ws, isspace c = true) ∧ (sign = [] ∨ sign = ['-'] ∨ sign = ['+']) ∧
      ∀ c ∈ (subject s).2.2.1, isdigit c = true := by
  simp only [subject]
  refine ⟨s.takeWhile isspace, (s.dropWhile isspace).take
      (if (s.dropWhile isspace).head? = some '-' ∨ (s.dropWhile isspace).head? = some '+'
        then 1 else 0), ?_, ?_, ?_, ?_⟩
  · rw [List.append_assoc, List.append_assoc, List.takeWhile_append_dropWhile,
      List.take_append_drop, List.takeWhile_append_dropWhile]
  · intro c hc
    exact List.mem_takeWhile_imp hc
  · cases hs1 : s.dropWhile isspace with
    | nil => simp
    | cons x t =>
      simp only [List.head?_cons, Option.some.injEq]
      by_cases hm : x = '-'
      · subst hm; simp
      · by_cases hp : x = '+'
        · subst hp; simp
        · simp [hm, hp]
  · intro c hc
    exact List.mem_takeWhile_imp hc

/-- What `strtoll` leaves for `endptr` is empty and digits were read exactly on
the whole numerals. -/
theorem wholeNumeral_iff_subject (s : List Char) :
    WholeNumeral s ↔ (subject s).2.2.1 ≠ [] ∧ (subject s).2.2.2 = [] := by
  refine ⟨wholeNumeral_subject s, ?_⟩
  rintro ⟨hds, hrest⟩
  obtain ⟨ws, sign, hs, hws, hsign, hd⟩ := subject_form s
  rw [hrest, List.append_nil] at hs
  exact ⟨ws, sign, (subject s).2.2.1, hs, hws, hsign, hds, hd⟩

theorem wholeNumeral_last (s : List Char) (h : WholeNumeral s) :
    ∃ c, s.getLast? = some c ∧ isdigit c = true := by
  obtain ⟨ws, sign, ds, rfl, -, -, hne, hd⟩ := h
  exact getLast?_of_append_digits (ws ++ sign) ds hne hd

/-- A signed parser returns true only on a whole numeral. -/
theorem parseSigned_true_whole (lo hi : Int) (s : List Char) (number : Option Int)
    (h : (parseSigned lo hi (some s) number).1 = true) : WholeNumeral s := by
  rw [wholeNumeral_iff_subject]
  cases number with
  | none => simp [parseSigned] at h
  | some old =>
    simp only [parseSigned, strtoll] at h
    by_cases hds : (subject s).2.2.1 = []
    · simp [hds] at h
    · refine ⟨hds, ?_⟩
      by_contra hrest
      simp only [hds, if_false] at h
      split_ifs at h

/-- An unsigned parser returns true only on a whole numeral. -/
theorem parseUnsigned_true_whole (hi : Nat) (s : List Char) (number : Option Nat)
    (h : (parseUnsigned hi (some s) number).1 = true) : WholeNumeral s := by
  rw [wholeNumeral_iff_subject]
  cases number with
  | none => simp [parseUnsigned] at h
  | some old =>
    simp only [parseUnsigned, strtoull] at h
    by_cases hds : (subject s).2.2.1 = []
    · simp [hds] at h
    · refine ⟨hds, ?_⟩
      by_contra hrest
      simp only [hds, if_false] at h
      split_ifs at h

/-- C4: a string that is not one decimal numeral from its first to its last
character (white space, an optional sign, digits, and nothing after the
digits), and so in particular every string that does not end in a decimal
digit, the empty string included, is rejected by each of the eight integer
parsers, whatever the output pointer: a numeral that stops before the end of
the input is never accepted. -/
theorem parsers_accept_only_whole_numerals (s : List Char)
    (h : ¬ WholeNumeral s ∨ ∀ c, s.getLast? = some c → isdigit c = false)
    (ni : Option Int) (nu : Option Nat) :
    (stringToShort (some s) ni).1 = false ∧ (stringToUShort (some s) nu).1 = false ∧
    (stringToInt (some s) ni).1 = false ∧ (stringToUInt (some s) nu).1 = false ∧
    (stringToInt32 (some s) ni).1 = false ∧ (stringToUInt32 (some s) nu).1 = false ∧
    (stringToInt64 (some s) ni).1 = false ∧ (stringToUInt64 (some s) nu).1 = false := by
  have hnot : ¬ WholeNumeral s := by
    rcases h with h | h
    · exact h
    · intro hw
      obtain ⟨c, hc, hd⟩ := wholeNumeral_last s hw
      rw [h c hc] at hd
      exact Bool.false_ne_true hd
  have hs : ∀ lo hi, (parseSigned lo hi (some s) ni).1 = false := by
    intro lo hi
    by_contra hcon
    exact hnot (parseSigned_true_whole lo hi s ni (by simpa using hcon))
  have hu : ∀ hi, (parseUnsigned hi (some s) nu).1 = false := by
    intro hi
    by_contra hcon
    exact hnot (parseUnsigned_true_whole hi s nu (by simpa using hcon))
  exact ⟨hs _ _, hu _, hs _ _, hu _, hs _ _, hu _, hs _ _, hu _⟩

/-- The strings `"12a3"` and `"1 2"` end in a digit but are not whole numerals,
and `"12 "` ends in a space: all eight parsers reject each of them, where
`"12"` is accepted. -/
theorem parsers_accept_only_whole_numerals_witness :
    ((stringToShort (some "12a3".toList) (some 0)).1 = false ∧
      (stringToUShort (some "12a3".toList) (some 0)).1 = false ∧
      (stringToInt (some "12a3".toList) (some 0)).1 = false ∧
      (stringToUInt (some "12a3".toList) (some 0)).1 = false ∧
      (stringToInt32 (some "12a3".toList) (some 0)).1 = false ∧
      (stringToUInt32 (some "12a3".toList) (some 0)).1 = false ∧
      (stringToInt64 (some "12a3".toList) (some 0)).1 = false ∧
      (stringToUInt64 (some "12a3".toList) (some 0)).1 = false) ∧
    ((stringToShort (some "1 2".toList) (some 0)).1 = false ∧
      (stringToUShort (some "1 2".toList) (some 0)).1 = false ∧
      (stringToInt (some "1 2".toList) (some 0)).1 = false ∧
      (stringToUInt (some "1 2".toList) (some 0)).1 = false ∧
      (stringToInt32 (some "1 2".toList) (some 0)).1 = false ∧
      (stringToUInt32 (some "1 2".toList) (some 0)).1 = false ∧
      (stringToInt64 (some "1 2".toList) (some 0)).1 = false ∧
      (stringToUInt64 (some "1 2".toList) (some 0)).1 = false) ∧
    ((stringToShort (some "12 ".toList) (some 0)).1 = false ∧
      (stringToUShort (some "12 ".toList) (some 0)).1 = false ∧
      (stringToInt (some "12 ".toList) (some 0)).1 = false ∧
      (stringToUInt (some "12 ".toList) (some 0)).1 = false ∧
      (stringToInt32 (some "12 ".toList) (some 0)).1 = false ∧
      (stringToUInt32 (some "12 ".toList) (some 0)).1 = false ∧
      (stringToInt64 (some "12 ".toList) (some 0)).1 = false ∧
      (stringToUInt64 (some "12 ".toList) (some 0)).1 = false) ∧
    stringToInt (some "12".toList) (some 0) = (true, some 12) ∧
    stringToUInt64 (some "12".toList) (some 0) = (true, some 12) :=
  ⟨parsers_accept_only_whole_numerals "12a3".toList
      (Or.inl (fun hw => absurd (wholeNumeral_subject _ hw).2 (by decide))) (some 0) (some 0),
    parsers_accept_only_whole_numerals "1 2".toList
      (Or.inl (fun hw => absurd (wholeNumeral_subject _ hw).2 (by decide))) (some 0) (some 0),
    parsers_accept_only_whole_numerals "12 ".toList
      (Or.inr (by
        intro c hc
        have hc' : c = ' ' := by
          have : "12 ".toList.getLast? = some ' ' := by decide
          rw [this] at hc
          exact (Option.some.inj hc).symm
        subst hc'
        decide)) (some 0) (some 0),
    by decide, by decide⟩

/-! ### The length of the result of `repl_str` -/

/-- C5: under the same conditions the scan pass leaves in `count` the number
`k` of the non-overlapping matches of `from` in `str`, with their offsets in
the cache, and the returned string has exactly
`strlen(str) + (strlen(to) - strlen(from)) * k` bytes, an equation between
integers; the `size_t` expression for `retlen` has that value although
`tolen - fromlen` wraps when `to` is the shorter, and no `cpylen` of the build
pass wraps. -/
theorem repl_str_result_length (alloc : Nat → Bool) (halloc : ∀ n, alloc n = true)
    (fuel : Nat) (str from_ to_ : List Char) (hfrom : from_ ≠ [])
    (hfuel : str.length < fuel) (hstr : str.length < 2 ^ 64)
    (hfit : (str.length : Int) + ((to_.length : Int) - from_.length)
      * (matchOffsets str from_).length < 2 ^ 64) :
    ∃ st ret, scanLoop alloc str from_ fuel ⟨0, 0, [], 0, 16⟩ = some (some st) ∧
      st.pos_cache = matchOffsets str from_ ∧
      st.count = (matchOffsets str from_).length ∧
      repl_str alloc fuel str from_ to_ = some (Ret.str ret) ∧
      (ret.length : Int) = (str.length : Int)
        + ((to_.length : Int) - from_.length) * (matchOffsets str from_).length ∧
      (ret.length : Int) = (str.length : Int) + ((to_.length : Int) - from_.length) * st.count ∧
      retlenOf (st.pstr + (str.drop st.pstr).length) to_.length from_.length st.count
        = ret.length ∧
      ∀ i, i < st.count →
        (cpylenOf from_.length (st.pstr + (str.drop st.pstr).length) st.count st.pos_cache i : Int)
          = ((if i = st.count - 1 then st.pstr + (str.drop st.pstr).length
              else st.pos_cache.getD (i + 1) 0 : Nat) : Int)
            - (st.pos_cache.getD i 0 : Int) - (from_.length : Int) := by
  have hc : Chained from_.length str.length 0 (matchOffsets str from_) := by
    simpa using scanOffsets_chained from_ hfrom str 0 0
  obtain ⟨hle, hsum⟩ :=
    splice_length str to_ from_.length (matchOffsets str from_) 0 hc (Nat.zero_le _)
  simp only [Nat.sub_zero] at hle hsum
  have hL : ((splice str to_ from_.length 0 (matchOffsets str from_)).length : Int)
      = (str.length : Int) + ((to_.length : Int) - from_.length)
        * (matchOffsets str from_).length := by
    have := congrArg (fun x : Nat => (x : Int)) hsum
    push_cast at this
    linarith
  have hfit' : (splice str to_ from_.length 0 (matchOffsets str from_)).length < 2 ^ 64 := by
    have : ((splice str to_ from_.length 0 (matchOffsets str from_)).length : Int) < 2 ^ 64 := by
      rw [hL]; exact hfit
    exact_mod_cast this
  obtain ⟨st, hscan, hpos, hcnt, horg, hrun, hret⟩ :=
    repl_str_spec alloc halloc fuel str from_ to_ hfrom hfuel hstr hfit'
  refine ⟨st, _, hscan, hpos, hcnt, hrun, hL, ?_, ?_, ?_⟩
  · rw [hL, hcnt]
  · rw [horg, hret]
  · intro i hi
    rw [horg, hcnt, hpos]
    rw [hcnt] at hi
    obtain ⟨h1, h2, h3⟩ := cpylenOf_exact from_.length str.length hstr _ 0 hc i hi
    rw [h3]
    omega

/-- Deleting `"lo"` from `"hello world"`: one match, at offset 3, and the
replacement is the shorter string, so `tolen - fromlen` wraps; the result
`"hel world"` has `11 + (0 - 2) * 1 = 9` bytes. -/
theorem repl_str_result_length_witness :
    (matchOffsets "hello world".toList "lo".toList = [3] ∧
      scanLoop allocOk "hello world".toList "lo".toList 12 ⟨0, 0, [], 0, 16⟩
        = some (some ⟨5, 1, [3], 16, 48⟩) ∧
      repl_str allocOk 12 "hello world".toList "lo".toList []
        = some (Ret.str "hel world".toList) ∧
      "hel world".toList.length = 9 ∧ retlenOf 11 0 2 1 = 9 ∧
      subSz 0 2 = 18446744073709551614) ∧
    ∃ st ret, scanLoop allocOk "hello world".toList "lo".toList 12 ⟨0, 0, [], 0, 16⟩
        = some (some st) ∧
      st.pos_cache = matchOffsets "hello world".toList "lo".toList ∧
      st.count = (matchOffsets "hello world".toList "lo".toList).length ∧
      repl_str allocOk 12 "hello world".toList "lo".toList [] = some (Ret.str ret) ∧
      (ret.length : Int) = ("hello world".toList.length : Int)
        + ((([] : List Char).length : Int) - "lo".toList.length)
          * (matchOffsets "hello world".toList "lo".toList).length ∧
      (ret.length : Int) = ("hello world".toList.length : Int)
        + ((([] : List Char).length : Int) - "lo".toList.length) * st.count ∧
      retlenOf (st.pstr + ("hello world".toList.drop st.pstr).length) ([] : List Char).length
        "lo".toList.length st.count = ret.length ∧
      ∀ i, i < st.count →
        (cpylenOf "lo".toList.length (st.pstr + ("hello world".toList.drop st.pstr).length)
            st.count st.pos_cache i : Int)
          = ((if i = st.count - 1 then st.pstr + ("hello world".toList.drop st.pstr).length
              else st.pos_cache.getD (i + 1) 0 : Nat) : Int)
            - (st.pos_cache.getD i 0 : Int) - ("lo".toList.length : Int) :=
  ⟨by decide, repl_str_result_length allocOk (fun _ => rfl) 12 "hello world".toList "lo".toList []
    (by decide) (by decide) (by decide) (by decide)⟩

/-! ### Truncation by `splitLines` -/

/-- C10: on a C string of `n` lines, `splitLines` with a capacity `big` of at
least `n` returns `n` and records the `n` lines of the buffer; with a capacity
`size` of at least 1 it returns `min size n`, never a negative number, and
records the first `min size n` of those segments, pointers and contents alike
and in the same order: the first `min size n` lines of the buffer. -/
theorem splitLines_truncation_keeps_first (buf : List Char) (hnul : NulFree buf)
    (size big : Int) (hsize : 1 ≤ size) (hbig : ((linesOf buf).length : Int) ≤ big) :
    ∃ rt rf, splitLines (some buf) (some ()) size = some rt ∧
      splitLines (some buf) (some ()) big = some rf ∧
      rf.ret = ((linesOf buf).length : Int) ∧ rf.segments = linesOf buf ∧
      rt.ret = min size rf.ret ∧ 0 ≤ rt.ret ∧
      rt.linesArray = rf.linesArray.take (min size rf.ret).toNat ∧
      rt.segments = rf.segments.take (min size rf.ret).toNat ∧
      rt.segments = (linesOf buf).take (min size ((linesOf buf).length : Int)).toNat ∧
      (rt.segments.length : Int) = min size ((linesOf buf).length : Int) := by
  obtain ⟨rt, ht, htret, htarr, htseg⟩ := splitLines_spec buf hnul size
  obtain ⟨rf, hf, hfret, hfarr, hfseg⟩ := splitLines_spec buf hnul big
  rw [passes_of_le big _ hbig] at hfret hfarr hfseg
  have hfull : rf.segments = linesOf buf := by
    rw [hfseg]
    exact List.take_of_length_le (le_refl _)
  have hp := passes_of_pos size (linesOf buf).length hsize
  have hk : (min size rf.ret).toNat = passes size 0 (linesOf buf).length := by
    rw [hfret, ← hp]; simp
  have hseg : rt.segments = rf.segments.take (min size rf.ret).toNat := by
    rw [hk, htseg, hfseg, List.take_take]
    congr 1
    simp only [passes]
    omega
  have hseg' : rt.segments
      = (linesOf buf).take (min size ((linesOf buf).length : Int)).toNat := by
    rw [hseg, hfull, hfret]
  refine ⟨rt, rf, ht, hf, hfret, hfull, by rw [htret, hp, hfret], by omega, ?_, hseg, hseg', ?_⟩
  · rw [hk, htarr, hfarr, List.take_take]
    congr 1
    have := writesOf_length (linesOf buf) 0 0
    simp only [passes]
    omega
  · rw [hseg', List.length_take]
    omega

/-- The buffer `"a\nb\n\nc"` has the four lines `"a"`, `"b"`, `""`, `"c"`; with
capacity 2 `splitLines` records `"a"` and `"b"` and returns 2. -/
theorem splitLines_truncation_keeps_first_witness :
    ((splitLines (some "a\nb\n\nc".toList) (some ()) 2).map (fun r => (r.ret, r.segments))
        = some (2, ["a".toList, "b".toList]) ∧
      (splitLines (some "a\nb\n\nc".toList) (some ()) 4).map (fun r => (r.ret, r.segments))
        = some (4, ["a".toList, "b".toList, [], "c".toList]) ∧
      linesOf "a\nb\n\nc".toList = ["a".toList, "b".toList, [], "c".toList]) ∧
    ∃ rt rf, splitLines (some "a\nb\n\nc".toList) (some ()) 2 = some rt ∧
      splitLines (some "a\nb\n\nc".toList) (some ()) 4 = some rf ∧
      rf.ret = ((linesOf "a\nb\n\nc".toList).length : Int) ∧
      rf.segments = linesOf "a\nb\n\nc".toList ∧
      rt.ret = min 2 rf.ret ∧ 0 ≤ rt.ret ∧
      rt.linesArray = rf.linesArray.take (min 2 rf.ret).toNat ∧
      rt.segments = rf.segments.take (min 2 rf.ret).toNat ∧
      rt.segments = (linesOf "a\nb\n\nc".toList).take
        (min 2 ((linesOf "a\nb\n\nc".toList).length : Int)).toNat ∧
      (rt.segments.length : Int) = min 2 ((linesOf "a\nb\n\nc".toList).length : Int) :=
  ⟨by decide,
    splitLines_truncation_keeps_first "a\nb\n\nc".toList (by decide) 2 4 (by decide) (by decide)⟩

/-! ### The counter of `countLines` -/

example : countLines (some "a\nb\n\nc".toList) = CountOutcome.ret 4 := by decide
example : countLines (some "a\n".toList) = CountOutcome.ret 1 := by decide
example : countLines (some []) = CountOutcome.ret 0 := by decide
example : countLoop "a\nb".toList 3 ⟨some 0, 2147483646⟩ = CountOutcome.overflow := by decide
example : lineCount "a\nb\n\nc".toList = 4 := by decide

theorem incrInt_of_lt (n : Int) (h : n < INT_MAX) : incrInt n = some (n + 1) := by
  simp [incrInt, h]

theorem incrInt_of_ge (n : Int) (h : INT_MAX ≤ n) : incrInt n = none := by
  simp [incrInt, not_lt.mpr h]

/-- The loop of `countLines`, started at the end of `done` on the C string
`rest` with the counter at `ln`, ends within `rest.length + 1` passes: it
returns `ln` plus the number of lines of `rest` when that is an `int`, and
overflows the counter otherwise. -/
theorem countLoop_spec : ∀ (fuel : Nat) (rest done : List Char) (ln : Int),
    NulFree rest → rest.length < fuel → ln ≤ INT_MAX →
    countLoop (done ++ rest) fuel ⟨some done.length, ln⟩
      = if ln + ((linesOf rest).length : Int) ≤ INT_MAX
        then CountOutcome.ret (ln + ((linesOf rest).length : Int))
        else CountOutcome.overflow := by
  intro fuel
  induction fuel with
  | zero => intro rest done ln _ h; omega
  | succ f ih =>
    intro rest done ln hnul hfuel hln
    have hcstr : cstrAt (done ++ rest) done.length = rest := by
      rw [cstrAt_append, takeWhile_nul_self rest hnul]
    rcases first_line_cases rest with hno | ⟨line, rest', hrest, hline⟩
    · have hchr := strchr_none_of_not_mem '\n' rest hno
      by_cases hempty : rest = []
      · subst hempty
        simp only [List.append_nil] at hcstr ⊢
        simp [countLoop, countBody, countCond, hcstr, hchr, linesOf, hln]
      · have hlines := linesOf_no_newline rest hempty hno
        have hpos : 0 < rest.length := List.length_pos.mpr hempty
        by_cases hlt : ln < INT_MAX
        · have hle : ln + 1 ≤ INT_MAX := hlt
          simp [countLoop, countBody, countCond, hcstr, hchr, hlines, hpos,
            incrInt_of_lt ln hlt, hle]
        · have hgt : ¬ (ln + 1 ≤ INT_MAX) := hlt
          simp [countLoop, countBody, countCond, hcstr, hchr, hlines, hpos,
            incrInt_of_ge ln (not_lt.mp hlt), hgt]
    · subst hrest
      have hchr := strchr_append '\n' line rest' hline
      have hnr : NulFree rest' := fun c hc =>
        hnul c (List.mem_append_right _ (List.mem_cons_of_mem _ hc))
      have hlines := linesOf_line line rest' hline
      have hbuf : done ++ (line ++ '\n' :: rest') = (done ++ line ++ ['\n']) ++ rest' := by simp
      have hlen' : (done ++ line ++ ['\n']).length = done.length + line.length + 1 := by
        simp [Nat.add_assoc]
      have hf : rest'.length < f := by
        simp only [List.length_append, List.length_cons] at hfuel
        omega
      by_cases hlt : ln < INT_MAX
      · have hbody : countBody (done ++ (line ++ '\n' :: rest')) ⟨some done.length, ln⟩
            = some ⟨some (done ++ line ++ ['\n']).length, ln + 1⟩ := by
          simp only [countBody, hcstr, hchr, hlen', incrInt_of_lt ln hlt, Option.map_some']
        have hle : ln + 1 ≤ INT_MAX := hlt
        by_cases hr : rest' = []
        · subst hr
          have hcond : countCond (done ++ (line ++ ['\n']))
              ⟨some (done ++ line ++ ['\n']).length, ln + 1⟩ = false := by
            have := byteAt_append (done ++ line ++ ['\n']) [] (fun _ h => by simp at h)
            simp only [List.append_nil, ne_eq, not_true_eq_false, iff_false, not_not] at this
            simp only [countCond, ← List.append_assoc, this]
            simp
          rw [countLoop, hbody]
          simp only [hcond, hlines, linesOf]
          simp [hle]
        · have hcond : countCond (done ++ (line ++ '\n' :: rest'))
              ⟨some (done ++ line ++ ['\n']).length, ln + 1⟩ = true := by
            have := (byteAt_append (done ++ line ++ ['\n']) rest' hnr).mpr hr
            rw [hbuf]
            simp only [countCond]
            simpa using this
          have hrun := ih rest' (done ++ line ++ ['\n']) (ln + 1) hnr hf hle
          rw [countLoop, hbody]
          simp only [hcond, if_true]
          rw [hbuf, hrun, hlines]
          simp only [List.length_cons, Nat.cast_add, Nat.cast_one]
          have e : ln + 1 + ((linesOf rest').length : Int)
              = ln + (((linesOf rest').length : Int) + 1) := by ring
          rw [e]
      · have hbody : countBody (done ++ (line ++ '\n' :: rest')) ⟨some done.length, ln⟩
            = none := by
          simp only [countBody, hcstr, hchr, incrInt_of_ge ln (not_lt.mp hlt), Option.map_none']
        rw [countLoop, hbody, hlines]
        have hgt : ¬ (ln + (((linesOf rest').length + 1 : Nat) : Int) ≤ INT_MAX) := by
          have : INT_MAX ≤ ln := not_lt.mp hlt
          push_cast
          omega
        simp only [List.length_cons, hgt, if_false]

/-- On a C string, `countLines` returns the number of lines when that is an
`int`, and overflows its counter otherwise. -/
theorem countLines_spec (buf : List Char) (hnul : NulFree buf) :
    countLines (some buf)
      = if ((linesOf buf).length : Int) ≤ INT_MAX
        then CountOutcome.ret ((linesOf buf).length : Int) else CountOutcome.overflow := by
  have hrun := countLoop_spec (buf.length + 1) buf [] 0 hnul (Nat.lt_succ_self _) (by decide)
  simp only [List.nil_append, List.length_nil, Int.zero_add] at hrun
  simp only [countLines, hrun]

/-- From `2 ^ 31` newlines on the counter of `countLines` overflows. -/
theorem countLines_overflow (n : Nat) (h : 2147483647 < n) :
    countLines (some (List.replicate n '\n')) = CountOutcome.overflow := by
  have hnul : NulFree (List.replicate n '\n') := by
    intro c hc
    rw [List.eq_of_mem_replicate hc]
    decide
  have hlen := linesOf_length (List.replicate n '\n')
  rw [List.count_replicate_self] at hlen
  have hgt : ¬ (((linesOf (List.replicate n '\n')).length : Int) ≤ INT_MAX) := by
    simp only [INT_MAX]
    omega
  rw [countLines_spec _ hnul, if_neg hgt]

theorem lineCount_eq (buf : List Char) : lineCount buf = (linesOf buf).length := by
  rw [linesOf_length, lineCount]

/-- C11: on a C string whose number of lines is an `int`, `countLines` returns
the number of newlines, plus one when the buffer is not empty and does not end
in a newline; the null pointer and the empty buffer give 0, and a newline
added to a non-empty buffer that does not end in one leaves the count as it
is. -/
theorem countLines_counts_newlines (buf : List Char) (hnul : NulFree buf)
    (hbound : ((buf.count '\n' : Nat) : Int)
      + (if buf ≠ [] ∧ buf.getLast? ≠ some '\n' then 1 else 0) ≤ INT_MAX) :
    countLines (some buf)
      = CountOutcome.ret (((buf.count '\n' : Nat) : Int)
          + (if buf ≠ [] ∧ buf.getLast? ≠ some '\n' then 1 else 0)) ∧
    countLines none = CountOutcome.ret 0 ∧ countLines (some []) = CountOutcome.ret 0 ∧
    (buf ≠ [] → buf.getLast? ≠ some '\n' →
      countLines (some (buf ++ ['\n'])) = countLines (some buf)) := by
  have h1 := countLines_spec buf hnul
  have hcast : ((linesOf buf).length : Int) = ((buf.count '\n' : Nat) : Int)
      + (if buf ≠ [] ∧ buf.getLast? ≠ some '\n' then 1 else 0) := by
    rw [linesOf_length]
    split_ifs <;> simp
  refine ⟨?_, rfl, rfl, ?_⟩
  · rw [h1, hcast, if_pos hbound]
  · intro hne hlast
    rw [countLines_spec _ (nulFree_append_newline buf hnul), h1, linesOf_length, linesOf_length]
    have e1 : (buf ++ ['\n']).getLast? = some '\n' := by simp
    have e2 : (buf ++ ['\n']).count '\n' = buf.count '\n' + 1 := by simp
    rw [e1, e2]
    simp [hne, hlast]

/-- The buffer `"a\nb\n\nc"`: three newlines and an unfinished last line, four
lines. -/
theorem countLines_counts_newlines_witness :
    countLines (some "a\nb\n\nc".toList) = CountOutcome.ret 4 ∧
    countLines (some "a\nb\n\nc".toList)
      = CountOutcome.ret ((("a\nb\n\nc".toList.count '\n' : Nat) : Int)
          + (if "a\nb\n\nc".toList ≠ [] ∧ "a\nb\n\nc".toList.getLast? ≠ some '\n' then 1 else 0)) ∧
    countLines none = CountOutcome.ret 0 ∧ countLines (some []) = CountOutcome.ret 0 ∧
    ("a\nb\n\nc".toList ≠ [] → "a\nb\n\nc".toList.getLast? ≠ some '\n' →
      countLines (some ("a\nb\n\nc".toList ++ ['\n'])) = countLines (some "a\nb\n\nc".toList)) :=
  ⟨by decide, countLines_counts_newlines "a\nb\n\nc".toList (by decide) (by decide)⟩

/-! ### `countLines` and `splitLines` together -/

/-- C18: on a C string whose number of lines `n` is an `int`, `countLines`
returns `n`, and `splitLines` with capacity `n` (also when `n` is 0) stores
exactly `n` entries, at the indices `0, ..., n - 1`, and returns `n`; with any
larger capacity it returns `n` as well. -/
theorem countLines_sizes_splitLines (buf : List Char) (hnul : NulFree buf)
    (hbound : (lineCount buf : Int) ≤ INT_MAX) :
    ∃ n : Nat, n = lineCount buf ∧ countLines (some buf) = CountOutcome.ret (n : Int) ∧
      (∃ r, splitLines (some buf) (some ()) n = some r ∧ r.ret = n ∧
        r.linesArray.length = n ∧ r.linesArray.map Prod.fst = List.range n ∧
        ∀ w ∈ r.linesArray, w.1 < n) ∧
      ∀ big : Int, (n : Int) ≤ big →
        ∃ r, splitLines (some buf) (some ()) big = some r ∧ r.ret = n := by
  rw [lineCount_eq] at hbound
  refine ⟨(linesOf buf).length, (lineCount_eq buf).symm, ?_, ?_, ?_⟩
  · rw [countLines_spec buf hnul, if_pos hbound]
  · obtain ⟨r, hr, hret, harr, -⟩ := splitLines_spec buf hnul ((linesOf buf).length : Int)
    rw [passes_of_le _ _ (le_refl _)] at hret harr
    have hfull : r.linesArray = writesOf 0 0 (linesOf buf) := by
      rw [harr]
      exact List.take_of_length_le (by rw [writesOf_length])
    have hidx : r.linesArray.map Prod.fst = List.range (linesOf buf).length := by
      rw [hfull, writesOf_index, List.range_eq_range']
    refine ⟨r, hr, hret, by rw [hfull, writesOf_length], hidx, ?_⟩
    intro w hw
    have : w.1 ∈ r.linesArray.map Prod.fst := List.mem_map_of_mem _ hw
    rw [hidx] at this
    exact List.mem_range.mp this
  · intro big hbig
    obtain ⟨r, hr, hret, -, -⟩ := splitLines_spec buf hnul big
    rw [passes_of_le _ _ hbig] at hret
    exact ⟨r, hr, hret⟩

/-- The buffer `"a\nb\n\nc"` has four lines. -/
theorem countLines_sizes_splitLines_witness :
    (lineCount "a\nb\n\nc".toList = 4 ∧
      countLines (some "a\nb\n\nc".toList) = CountOutcome.ret 4 ∧
      (splitLines (some "a\nb\n\nc".toList) (some ()) 4).map (fun r => r.ret) = some 4) ∧
    ∃ n : Nat, n = lineCount "a\nb\n\nc".toList ∧
      countLines (some "a\nb\n\nc".toList) = CountOutcome.ret (n : Int) ∧
      (∃ r, splitLines (some "a\nb\n\nc".toList) (some ()) n = some r ∧ r.ret = n ∧
        r.linesArray.length = n ∧ r.linesArray.map Prod.fst = List.range n ∧
        ∀ w ∈ r.linesArray, w.1 < n) ∧
      ∀ big : Int, (n : Int) ≤ big →
        ∃ r, splitLines (some "a\nb\n\nc".toList) (some ()) big = some r ∧ r.ret = n :=
  ⟨by decide, countLines_sizes_splitLines "a\nb\n\nc".toList (by decide) (by decide)⟩

/-! ### The padding of `IntervalToString` -/

theorem fmtSpace_natCast (w n : Nat) :
    fmtSpace w (n : Int) = List.replicate (w - (natDecimal n).length) ' ' ++ natDecimal n := by
  rw [fmtSpace, decimal_natCast]

theorem fmtZero_natCast (w n : Nat) :
    fmtZero w (n : Int) = List.replicate (w - (natDecimal n).length) '0' ++ natDecimal n := by
  have : ¬ ((n : Int) < 0) := by omega
  simp [fmtZero, this]

theorem natDecimal_length_le (n k : Nat) (hk : 0 < k) (h : n < 10 ^ k) :
    (natDecimal n).length ≤ k :=
  (natDecimal_spec n).2.2.2 k hk h

end StringUtils
